import Mathlib

/-!
Verification of the README-generation pipeline in `sbin/gener_readme.py`.

The script expands a README template: each line carrying an inline reference
descriptor (a JSON object between braces after a `+` enumeration marker) is
resolved to bibliographic metadata through three providers (arXiv OAI-PMH,
Crossref DOI, Semantic Scholar), backed by a line-delimited JSON cache, and
re-rendered as a citation block.

This file gives a shallow embedding of that pipeline and proves properties
about it.  Conventions of the embedding:

* Python strings are `List Char` (named `Str` here); Python dicts are
  association lists `List (Str × JVal)` in insertion order, with
  `dictSet` modelling `d[k] = v` (update in place, else append) and
  `jlookup` modelling `d[k]` / `d.get(k)`.
* JSON values (`json.loads` / `json.dumps`) are modelled by `JVal`; JSON
  numbers are modelled as integers (no value in this pipeline's data is a
  float, and floating point is out of scope).  `json.dumps(..., sort_keys=True)`
  is `dumps` below: serialization with all object keys sorted recursively,
  `", "` / `": "` separators, and standard string escaping.  The `ensure_ascii`
  escaping of `json.dumps` is modelled faithfully including surrogate pairs;
  on parsing, lone surrogate escapes are rejected (CPython tolerates them, but
  no serializer output contains one).
* Fallible Python code is modelled in `Except PyErr`; a raised exception is
  `.error e` and propagates as in Python.
* Stateful pieces (the cache dict threaded through `fetch_metadata_cached`,
  the network, `time.sleep`) are modelled by explicit state passing: fetch
  oracles are functions, the arXiv retry loop consumes a list of HTTP
  responses and records the sleeps it performs.
-/

/-- Python strings, modelled as their list of characters. -/
abbrev Str := List Char

/-- Characters of a Lean string literal, used to write concrete `Str` values. -/
def chars (s : String) : Str := s.data

/-- Python exceptions that the script can raise. -/
inductive PyErr where
  | keyError
  | indexError
  | typeError
  | jsonError
  | httpError (code : Nat)
deriving DecidableEq, Repr

/-- Whitespace for Python's `str.strip()` (space, tab, newline, carriage
return, vertical tab, form feed). -/
def pyIsSpace (c : Char) : Bool :=
  c = ' ' || c = '\t' || c = '\n' || c = '\r' || c = '\x0b' || c = '\x0c'

/-- Python's `str.lstrip()`. -/
def pyLStrip (s : Str) : Str := s.dropWhile pyIsSpace

/-- Python's `str.strip()`: drop whitespace from both ends. -/
def pyStrip (s : Str) : Str := ((s.dropWhile pyIsSpace).reverse.dropWhile pyIsSpace).reverse

/-- Python's whitespace `str.split()`: split on runs of whitespace, no empty
tokens.  `cur` accumulates the current token in reverse. -/
def pySplitAux : Str → Str → List Str
  | [], cur => if cur = [] then [] else [cur.reverse]
  | c :: rest, cur =>
    if pyIsSpace c then
      if cur = [] then pySplitAux rest [] else cur.reverse :: pySplitAux rest []
    else pySplitAux rest (c :: cur)

/-- Python's `str.split()` with no separator argument. -/
def pySplit (s : Str) : List Str := pySplitAux s []

/-- Lexicographic `≤` on strings by code point, as Python compares `str`. -/
def charsLeB : Str → Str → Bool
  | [], _ => true
  | _ :: _, [] => false
  | a :: as, b :: bs =>
    if a.toNat < b.toNat then true
    else if b.toNat < a.toNat then false
    else charsLeB as bs

/-- JSON values as Python represents them after `json.loads`: `None`, `bool`,
`int`, `str`, `list`, `dict` (an association list in insertion order). -/
inductive JVal where
  | vnull
  | vbool (b : Bool)
  | vint (n : Int)
  | vstr (s : Str)
  | vlist (xs : List JVal)
  | vobj (fs : List (Str × JVal))

/-- Python `d[k]` lookup on a dict modelled as an association list. -/
def jlookup : List (Str × JVal) → Str → Option JVal
  | [], _ => none
  | f :: fs, k => if f.1 = k then some f.2 else jlookup fs k

/-- Python `d[k] = v`: replace in place if the key exists (keeping its
position), otherwise append. -/
def dictSet : List (Str × JVal) → Str → JVal → List (Str × JVal)
  | [], k, v => [(k, v)]
  | f :: fs, k, v => if f.1 = k then (k, v) :: fs else f :: dictSet fs k v

/-- Python `k in d`. -/
def containsKey (fs : List (Str × JVal)) (k : Str) : Bool := (jlookup fs k).isSome

/-- Key list of a dict. -/
def keysOf (fs : List (Str × JVal)) : List Str := fs.map Prod.fst

/-- No key occurs twice (always true of a real Python dict). -/
def nodupKeysB : List (Str × JVal) → Bool
  | [] => true
  | f :: fs => !(fs.any (fun g => g.1 = f.1)) && nodupKeysB fs

mutual
/-- Well-formed JSON value: every object (at any depth) has distinct keys,
as is automatic for values that come from Python dicts. -/
def jwfB : JVal → Bool
  | .vnull => true
  | .vbool _ => true
  | .vint _ => true
  | .vstr _ => true
  | .vlist xs => jwfL xs
  | .vobj fs => nodupKeysB fs && jwfM fs
def jwfL : List JVal → Bool
  | [] => true
  | x :: xs => jwfB x && jwfL xs
def jwfM : List (Str × JVal) → Bool
  | [] => true
  | f :: fs => jwfB f.2 && jwfM fs
end

/-- Insert a key-value pair into a key-sorted association list (used to model
Python's `sorted` over dict keys; keys are distinct in every real dict, so
stability is irrelevant). -/
def orderedInsertKey (p : Str × JVal) : List (Str × JVal) → List (Str × JVal)
  | [] => [p]
  | q :: qs => if charsLeB p.1 q.1 then p :: q :: qs else q :: orderedInsertKey p qs

/-- Sort an association list by key (Python `sorted(d.keys())` traversal). -/
def sortByKey : List (Str × JVal) → List (Str × JVal)
  | [] => []
  | p :: ps => orderedInsertKey p (sortByKey ps)

/-- Lowercase hex digit, as `json.dumps` emits in `\uXXXX` escapes. -/
def hexDigitChar (n : Nat) : Char :=
  if n < 10 then Char.ofNat (48 + n) else Char.ofNat (87 + n)

/-- Four hex digits of `n < 0x10000`, most significant first. -/
def hex4 (n : Nat) : Str :=
  [hexDigitChar (n / 4096 % 16), hexDigitChar (n / 256 % 16),
   hexDigitChar (n / 16 % 16), hexDigitChar (n % 16)]

/-- One character as `json.dumps` (default `ensure_ascii=True`) emits it
inside a string literal: named escapes, `\u00XX` for other control
characters, printable ASCII verbatim, `\uXXXX` for other BMP characters and
a surrogate pair for characters beyond the BMP. -/
def escapeChar (c : Char) : Str :=
  if c = '"' then ['\\', '"']
  else if c = '\\' then ['\\', '\\']
  else if c = '\n' then ['\\', 'n']
  else if c = '\t' then ['\\', 't']
  else if c = '\r' then ['\\', 'r']
  else if c = '\x08' then ['\\', 'b']
  else if c = '\x0c' then ['\\', 'f']
  else if c.toNat < 0x20 then '\\' :: 'u' :: hex4 c.toNat
  else if c.toNat < 0x80 then [c]
  else if c.toNat < 0x10000 then '\\' :: 'u' :: hex4 c.toNat
  else
    ('\\' :: 'u' :: hex4 (0xD800 + (c.toNat - 0x10000) / 0x400)) ++
    ('\\' :: 'u' :: hex4 (0xDC00 + (c.toNat - 0x10000) % 0x400))

/-- The body of a serialized JSON string (without the surrounding quotes). -/
def escStr : Str → Str
  | [] => []
  | c :: cs => escapeChar c ++ escStr cs

/-- Decimal digits of `n`, via fuel (any fuel above `n` suffices, see
`natCharsAux_extra`); kept structural so the kernel can evaluate it. -/
def natCharsAux : Nat → Nat → Str
  | 0, _ => []
  | fuel + 1, n => if n < 10 then [Nat.digitChar n] else natCharsAux fuel (n / 10) ++ [Nat.digitChar (n % 10)]

/-- Decimal representation of a natural number, as Python `str(n)`. -/
def natChars (n : Nat) : Str := natCharsAux (n + 1) n

/-- Python `str(n)` for an int (decimal, `-` sign). -/
def serInt (n : Int) : Str := if n < 0 then '-' :: natChars n.natAbs else natChars n.natAbs

mutual
/-- Serialize a JSON value in the given object order, with `json.dumps`'s
default separators `", "` and `": "`.  `json.dumps(v, sort_keys=True)` is
`dumps` below, which first sorts the keys recursively. -/
def serJ : JVal → Str
  | .vnull => chars "null"
  | .vbool true => chars "true"
  | .vbool false => chars "false"
  | .vint n => serInt n
  | .vstr s => '"' :: escStr s ++ ['"']
  | .vlist xs => '[' :: serL xs ++ [']']
  | .vobj fs => '{' :: serM fs ++ ['}']
def serL : List JVal → Str
  | [] => []
  | [x] => serJ x
  | x :: y :: xs => serJ x ++ ',' :: ' ' :: serL (y :: xs)
def serM : List (Str × JVal) → Str
  | [] => []
  | [f] => '"' :: escStr f.1 ++ '"' :: ':' :: ' ' :: serJ f.2
  | f :: g :: fs => ('"' :: escStr f.1 ++ '"' :: ':' :: ' ' :: serJ f.2) ++ ',' :: ' ' :: serM (g :: fs)
end

mutual
/-- Sort the keys of every object, recursively: the value `json.dumps`'s
`sort_keys=True` effectively serializes. -/
def sortKeysRec : JVal → JVal
  | .vnull => .vnull
  | .vbool b => .vbool b
  | .vint n => .vint n
  | .vstr s => .vstr s
  | .vlist xs => .vlist (sortKeysL xs)
  | .vobj fs => .vobj (sortByKey (sortKeysM fs))
def sortKeysL : List JVal → List JVal
  | [] => []
  | x :: xs => sortKeysRec x :: sortKeysL xs
def sortKeysM : List (Str × JVal) → List (Str × JVal)
  | [] => []
  | f :: fs => (f.1, sortKeysRec f.2) :: sortKeysM fs
end

/-- Model of `json.dumps(v, sort_keys=True)`. -/
def dumps (v : JVal) : Str := serJ (sortKeysRec v)

/-- JSON whitespace accepted between tokens by `json.loads`. -/
def jsonWs (c : Char) : Bool := c = ' ' || c = '\t' || c = '\n' || c = '\r'

/-- Skip JSON whitespace. -/
def skipWs (cs : Str) : Str := cs.dropWhile jsonWs

/-- ASCII decimal digit test. -/
def isDigit (c : Char) : Bool := 48 ≤ c.toNat && c.toNat ≤ 57

/-- Value of one hex digit (either case), if `c` is one. -/
def hexVal (c : Char) : Option Nat :=
  if 48 ≤ c.toNat ∧ c.toNat ≤ 57 then some (c.toNat - 48)
  else if 97 ≤ c.toNat ∧ c.toNat ≤ 102 then some (c.toNat - 87)
  else if 65 ≤ c.toNat ∧ c.toNat ≤ 70 then some (c.toNat - 55)
  else none

/-- Value of four hex digits, most significant first. -/
def hexVal4 (a b c d : Char) : Option Nat := do
  let x ← hexVal a
  let y ← hexVal b
  let z ← hexVal c
  let w ← hexVal d
  pure (x * 4096 + y * 256 + z * 16 + w)

/-- Unescape of the single-character escapes JSON accepts after a backslash. -/
def unescapeChar (e : Char) : Option Char :=
  if e = '"' then some '"'
  else if e = '\\' then some '\\'
  else if e = '/' then some '/'
  else if e = 'n' then some '\n'
  else if e = 't' then some '\t'
  else if e = 'r' then some '\r'
  else if e = 'b' then some '\x08'
  else if e = 'f' then some '\x0c'
  else none

/-- Parse the body of a JSON string after the opening quote, returning the
decoded string and the input after the closing quote.  Surrogate-pair
`\uXXXX\uXXXX` escapes are recombined; a lone surrogate escape or an
unescaped control character is rejected. -/
def parseStringBody : Str → Option (Str × Str)
  | [] => none
  | '"' :: rest => some ([], rest)
  | '\\' :: 'u' :: a :: b :: c :: d :: rest => do
    let n ← hexVal4 a b c d
    if 0xD800 ≤ n ∧ n < 0xDC00 then
      match rest with
      | '\\' :: 'u' :: e :: f :: g :: h :: rest2 => do
        let m ← hexVal4 e f g h
        if 0xDC00 ≤ m ∧ m < 0xE000 then
          match parseStringBody rest2 with
          | some (s, r) => some (Char.ofNat (0x10000 + (n - 0xD800) * 0x400 + (m - 0xDC00)) :: s, r)
          | none => none
        else none
      | _ => none
    else if 0xDC00 ≤ n ∧ n < 0xE000 then none
    else
      match parseStringBody rest with
      | some (s, r) => some (Char.ofNat n :: s, r)
      | none => none
  | '\\' :: e :: rest =>
    match unescapeChar e with
    | some c =>
      match parseStringBody rest with
      | some (s, r) => some (c :: s, r)
      | none => none
    | none => none
  | c :: rest =>
    if c.toNat < 0x20 then none
    else
      match parseStringBody rest with
      | some (s, r) => some (c :: s, r)
      | none => none

/-- Decimal value of a digit string. -/
def decVal (ds : Str) : Nat := ds.foldl (fun a c => a * 10 + (c.toNat - 48)) 0

/-- Parse a run of decimal digits (JSON integer body). -/
def parseDigits (cs : Str) : Option (Nat × Str) :=
  let ds := cs.takeWhile isDigit
  if ds.isEmpty then none else some (decVal ds, cs.drop ds.length)

/-- Dispatch on the first significant character of a JSON value;
`pObj` and `pArr` continue into a non-empty object or array body. -/
def parseValHead (c : Char) (rest : Str)
    (pObj : Str → Option (JVal × Str)) (pArr : Str → Option (JVal × Str)) :
    Option (JVal × Str) :=
  if c = '{' then
    match skipWs rest with
    | '}' :: r2 => some (.vobj [], r2)
    | r2 => pObj r2
  else if c = '[' then
    match skipWs rest with
    | ']' :: r2 => some (.vlist [], r2)
    | r2 => pArr r2
  else if c = '"' then
    match parseStringBody rest with
    | some (s, r2) => some (.vstr s, r2)
    | none => none
  else if c = 'n' then
    match rest with
    | 'u' :: 'l' :: 'l' :: r2 => some (.vnull, r2)
    | _ => none
  else if c = 't' then
    match rest with
    | 'r' :: 'u' :: 'e' :: r2 => some (.vbool true, r2)
    | _ => none
  else if c = 'f' then
    match rest with
    | 'a' :: 'l' :: 's' :: 'e' :: r2 => some (.vbool false, r2)
    | _ => none
  else if c = '-' then
    match parseDigits rest with
    | some (n, r2) => some (.vint (-(n : Int)), r2)
    | none => none
  else if isDigit c then
    match parseDigits (c :: rest) with
    | some (n, r2) => some (.vint (n : Int), r2)
    | none => none
  else none

mutual
/-- Recursive-descent JSON parser; `fuel` bounds the recursion depth and
member/element count (`jsonLoads` passes more than any input can need).
Numbers are integers: a float in the input is not consumed past its integer
part, so `jsonLoads` rejects it as trailing data (floats are out of scope). -/
def parseVal : Nat → Str → Option (JVal × Str)
  | 0, _ => none
  | fuel + 1, cs =>
    match skipWs cs with
    | [] => none
    | c :: rest =>
      parseValHead c rest (fun r2 => parseMembers fuel r2 [])
        (fun r2 => parseElems fuel r2 [])
/-- Members of an object after `{` (first non-`}` character already reached);
`acc` is the dict built so far, filled with Python's `dict` insertion
semantics. -/
def parseMembers : Nat → Str → List (Str × JVal) → Option (JVal × Str)
  | 0, _, _ => none
  | fuel + 1, cs, acc =>
    match cs with
    | '"' :: rest =>
      match parseStringBody rest with
      | some (k, r2) =>
        match skipWs r2 with
        | ':' :: r3 =>
          match parseVal fuel r3 with
          | some (v, r4) =>
            match skipWs r4 with
            | ',' :: r5 => parseMembers fuel (skipWs r5) (dictSet acc k v)
            | '}' :: r5 => some (.vobj (dictSet acc k v), r5)
            | _ => none
          | none => none
        | _ => none
      | none => none
    | _ => none
/-- Elements of an array after `[` (first non-`]` character already reached). -/
def parseElems : Nat → Str → List JVal → Option (JVal × Str)
  | 0, _, _ => none
  | fuel + 1, cs, acc =>
    match parseVal fuel cs with
    | some (v, r) =>
      match skipWs r with
      | ',' :: r2 => parseElems fuel r2 (acc ++ [v])
      | ']' :: r2 => some (.vlist (acc ++ [v]), r2)
      | _ => none
    | none => none
end

/-- Model of `json.loads`: parse one JSON document, requiring only
whitespace after it.  Any failure is the `json.JSONDecodeError` the script
lets propagate. -/
def jsonLoads (cs : Str) : Except PyErr JVal :=
  match parseVal (cs.length + 1) cs with
  | some (v, rest) => if (skipWs rest).isEmpty then .ok v else .error .jsonError
  | none => .error .jsonError

example : jsonLoads (chars "\x7b\"arxiv_id\": \"1234.5678\"\x7d") =
    .ok (.vobj [(chars "arxiv_id", .vstr (chars "1234.5678"))]) := by rfl

example : jsonLoads (chars "\x7ba:1234\x7d") = .error .jsonError := by rfl

example : jsonLoads (chars " [1, -20, null, true, \"a\\nb\"] ") =
    .ok (.vlist [.vint 1, .vint (-20), .vnull, .vbool true, .vstr ['a', '\n', 'b']]) := by rfl

example : jsonLoads (dumps (.vobj [(chars "b", .vint 2), (chars "a", .vnull)])) =
    .ok (.vobj [(chars "a", .vnull), (chars "b", .vint 2)]) := by rfl

/-- `KEY_FIELD_NAME = '0KEY_'`: the synthetic key field stored inside each
cached record. -/
def KEY_FIELD_NAME : Str := chars "0KEY_"

/-- `get_cache_key(src_code, src_id) = src_code + ':' + src_id`. -/
def getCacheKey (srcCode srcId : Str) : Str := srcCode ++ ':' :: srcId

/-- The in-memory cache: a Python dict from cache key to raw record. -/
abbrev Cache := List (Str × JVal)

/-- The loop body of `load_cache`: for each line, `r = json.loads(line)`,
`key = r[KEY_FIELD_NAME]`, `cache[key] = r`.  A record that is not an object
or lacks the key field raises (`TypeError` / `KeyError`), as in Python; a
non-string key value is modelled as a `TypeError` (Python would accept it as
a dict key and fail later in `save_cache`'s `sorted`). -/
def loadCacheAux : List Str → Cache → Except PyErr Cache
  | [], acc => .ok acc
  | line :: rest, acc =>
    match jsonLoads line with
    | .error e => .error e
    | .ok r =>
      match r with
      | .vobj fs =>
        match jlookup fs KEY_FIELD_NAME with
        | some (.vstr k) => loadCacheAux rest (dictSet acc k r)
        | some _ => .error .typeError
        | none => .error .keyError
      | _ => .error .typeError

/-- `load_cache` on an existing cache file, given as its list of lines. -/
def loadCache (fileLines : List Str) : Except PyErr Cache := loadCacheAux fileLines []

/-- `save_cache`: one `json.dumps(record, sort_keys=True)` line per record,
records written in ascending key order (`for k in sorted(cache.keys())`;
dict keys are distinct, so traversing the key-sorted association list is the
same iteration). -/
def saveCache (cache : Cache) : List Str := (sortByKey cache).map (fun p => dumps p.2)

/-- `_get_line_prefix(line, enumerator_char)`:
`line.split(sep=enumerator_char, maxsplit=1)[0]`, i.e. everything before the
first occurrence of the enumerator character (the whole line if absent). -/
def getLinePfx (line : Str) (enumeratorChar : Char) : Str :=
  line.takeWhile (· ≠ enumeratorChar)

/-- `ENUMERATION_CHARS = { '+' }`. -/
def ENUMERATION_CHARS : List Char := ['+']

/-- `extract_metadata(line)`: `None` (here `.ok none`) when the stripped line
is empty, does not start with an enumeration marker, or the remainder is not
wrapped in `{`…`}`; otherwise the parsed JSON object extended with
`enumerator_char` and `line_prefix`.  Indexing `line_reference[0]` on an
empty remainder raises `IndexError`; `json.loads` failures propagate. -/
def extractRef (line : Str) (c : Char) : Str → Except PyErr (Option (List (Str × JVal)))
  | [] => .error .indexError
  | r0 :: rrest =>
    if r0 = '{' ∧ (r0 :: rrest).getLastD ' ' = '}' then
      match jsonLoads (r0 :: rrest) with
      | .error e => .error e
      | .ok (.vobj fs) =>
        .ok (some (dictSet (dictSet fs (chars "enumerator_char") (.vstr [c]))
          (chars "line_prefix") (.vstr (getLinePfx line c))))
      | .ok _ => .error .typeError
    else .ok none

/-- The body of `extract_metadata` once the stripped line proved non-empty:
check the enumeration marker, then examine `line_reference`. -/
def extractCore (line : Str) (c : Char) (restStripped : Str) :
    Except PyErr (Option (List (Str × JVal))) :=
  if c ∈ ENUMERATION_CHARS then extractRef line c (pyStrip restStripped)
  else .ok none

def extractMetadata (line : Str) : Except PyErr (Option (List (Str × JVal))) :=
  match pyStrip line with
  | [] => .ok none
  | c :: restStripped => extractCore line c restStripped

example : extractMetadata (chars "+ \x7b\"arxiv_id\": \"1234.5678\"\x7d\n") =
    .ok (some [(chars "arxiv_id", .vstr (chars "1234.5678")),
               (chars "enumerator_char", .vstr ['+']),
               (chars "line_prefix", .vstr [])]) := by rfl

example : extractMetadata (chars "some plain text") = .ok none := by rfl

example : extractMetadata (chars "+ plain item") = .ok none := by rfl

/-- An XML element as `xml.etree.ElementTree` presents it: tag, attributes,
text and child elements. -/
inductive Xml where
  | elem (tag : Str) (attrib : List (Str × Str)) (text : Option Str) (children : List Xml)

/-- Tag accessor. -/
def xmlTag : Xml → Str
  | .elem tag _ _ _ => tag

/-- `_normalize_tag`: the part of the tag after the last `}` (the whole tag
when no namespace brace is present), via `s.rfind('}')` and slicing. -/
def normalizeTag (s : Str) : Str := (s.reverse.takeWhile (· ≠ '}')).reverse

/-- `ATTRIB_KEY = '_attrib'`. -/
def ATTRIB_KEY : Str := chars "_attrib"

/-- An attribute dict as a `JVal` object. -/
def attribObj (attrib : List (Str × Str)) : JVal :=
  .vobj (attrib.map (fun p => (p.1, .vstr p.2)))

/-- `_insert_and_listify(res, key, val)`: first occurrence of a key stores the
scalar, the second turns the entry into a two-element list, later ones
append. -/
def insertAndListify (res : List (Str × JVal)) (key : Str) (val : JVal) :
    List (Str × JVal) :=
  match jlookup res key with
  | some (.vlist cur) => dictSet res key (.vlist (cur ++ [val]))
  | some valCur => dictSet res key (.vlist [valCur, val])
  | none => res ++ [(key, val)]

mutual
/-- `parse_generic_xml(root)`: flatten the children of `root` into a dict. -/
def parseGenericXml : Xml → List (Str × JVal)
  | .elem _ _ _ children => parseXmlChildren children []
/-- The `for child in root` loop of `parse_generic_xml`. -/
def parseXmlChildren : List Xml → List (Str × JVal) → List (Str × JVal)
  | [], res => res
  | child :: rest, res =>
    parseXmlChildren rest (insertAndListify res (normalizeTag (xmlTag child)) (xmlChildVal child))
/-- The value stored for one child: recurse when it has children (injecting
`_attrib` when attributes are present), otherwise its text (wrapped together
with `_attrib` when attributes are present). -/
def xmlChildVal : Xml → JVal
  | .elem _ attrib text children =>
    match children with
    | _ :: _ =>
      let val := parseXmlChildren children []
      if attrib.length > 0 then .vobj (dictSet val ATTRIB_KEY (attribObj attrib))
      else .vobj val
    | [] =>
      let val : JVal := match text with
        | some s => .vstr s
        | none => .vnull
      if attrib.length > 0 then .vobj [(chars "val", val), (ATTRIB_KEY, attribObj attrib)]
      else val
end

/-- One HTTP response the arXiv fetch loop can observe: a successful body
(already parsed to an element tree) or an `HTTPError` with status code and
integer `Retry-After` header. -/
inductive FetchResp where
  | ok (body : Xml)
  | httpError (code : Nat) (retryAfter : Nat)

/-- Outcome of the `fetch_raw_metadata_arxiv` loop over a finite prefix of
the network's responses: success (with the flattened record and every
`time.sleep` duration performed, in order), a re-raised non-503 error, or
the oracle running out (the loop is still retrying). -/
inductive FetchOutcome where
  | success (res : List (Str × JVal)) (sleeps : List Nat)
  | raised (code : Nat) (sleeps : List Nat)
  | stillRetrying (sleeps : List Nat)

/-- The `while not finished` loop of `fetch_raw_metadata_arxiv`: on success
sleep 5 and return the XML flattened by `parse_generic_xml`; on a 503 sleep
the `Retry-After` duration and retry; re-raise any other `HTTPError`. -/
def fetchRawMetadataArxiv : List FetchResp → List Nat → FetchOutcome
  | [], sleeps => .stillRetrying sleeps
  | .ok body :: _, sleeps => .success (parseGenericXml body) (sleeps ++ [5])
  | .httpError code retryAfter :: rest, sleeps =>
    if code = 503 then fetchRawMetadataArxiv rest (sleeps ++ [retryAfter])
    else .raised code sleeps

/-- `d[k]` on a `JVal`: `KeyError` when the key is missing, `TypeError` when
the value is not a dict. -/
def jGetKey (v : JVal) (k : Str) : Except PyErr JVal :=
  match v with
  | .vobj fs =>
    match jlookup fs k with
    | some x => .ok x
    | none => .error .keyError
  | _ => .error .typeError

/-- A chain of subscript accesses `v[k1][k2]…`. -/
def jGetPath (v : JVal) : List Str → Except PyErr JVal
  | [] => .ok v
  | k :: ks => do jGetPath (← jGetKey v k) ks

/-- Python's `collections.Sequence` test as the script uses it: JSON lists
and strings are sequences, dicts and scalars are not. -/
def isPySequence : JVal → Bool
  | .vlist _ => true
  | .vstr _ => true
  | _ => false

/-- `s.replace(old, '')` for non-empty `old`: remove non-overlapping
occurrences left to right.  Fuel-structural so the kernel can evaluate it;
`fuel = s.length` always suffices. -/
def replaceAllAux (old : Str) : Nat → Str → Str
  | _, [] => []
  | 0, s => s
  | fuel + 1, c :: cs =>
    if old ≠ [] ∧ old.isPrefixOf (c :: cs) then
      replaceAllAux old fuel (List.drop (old.length - 1) cs)
    else c :: replaceAllAux old fuel cs

/-- `s.replace(old, '')`. -/
def replaceAll (old : Str) (s : Str) : Str := replaceAllAux old s.length s

/-- `re.sub(r' +', ' ', s)`: collapse each run of spaces to a single space. -/
def collapseSpaces : Str → Str
  | [] => []
  | [c] => [c]
  | c :: d :: rest =>
    if c = ' ' ∧ d = ' ' then collapseSpaces (d :: rest)
    else c :: collapseSpaces (d :: rest)

example : collapseSpaces (chars "a   b c") = chars "a b c" := by rfl

/-- `_normalize_title`: replace newlines by spaces, then collapse repeated
spaces. -/
def normalizeTitle (title : Str) : Str :=
  collapseSpaces (title.map (fun c => if c = '\n' then ' ' else c))

/-- `_normalize_authors` of the arXiv adapter:
`[[a['keyname'], a['forenames']] for a in authors]`. -/
def normalizeAuthorsArxiv (authors : List JVal) : Except PyErr (List JVal) :=
  authors.mapM (fun a => do
    let keyname ← jGetKey a (chars "keyname")
    let forenames ← jGetKey a (chars "forenames")
    pure (JVal.vlist [keyname, forenames]))

/-- `clean_raw_metadata_arxiv(met_raw)` up to (and excluding) the final
`try`/`except` `doi` block.  The record path
`GetRecord/record/metadata/arXiv` supplies title, authors and `created`;
`header/identifier` supplies the arXiv id (prefix `oai:arXiv.org:`
removed). -/
def cleanArxivCore (metRaw : JVal) : Except PyErr (List (Str × JVal)) := do
  let titleRaw ← jGetPath metRaw [chars "GetRecord", chars "record", chars "metadata", chars "arXiv", chars "title"]
  let authorsRaw ← jGetPath metRaw [chars "GetRecord", chars "record", chars "metadata", chars "arXiv", chars "authors", chars "author"]
  let authorsRaw := if isPySequence authorsRaw then authorsRaw else .vlist [authorsRaw]
  let titleNorm ← match titleRaw with
    | .vstr s => pure (normalizeTitle s)
    | _ => .error .typeError
  let authorsNorm ← match authorsRaw with
    | .vlist as => normalizeAuthorsArxiv as
    | _ => .error .typeError
  let arxivIdRaw ← jGetPath metRaw [chars "GetRecord", chars "record", chars "header", chars "identifier"]
  let arxivId ← match arxivIdRaw with
    | .vstr s => pure (replaceAll (chars "oai:arXiv.org:") s)
    | _ => .error .typeError
  let created ← jGetPath metRaw [chars "GetRecord", chars "record", chars "metadata", chars "arXiv", chars "created"]
  let met : List (Str × JVal) := [(chars "title", .vstr titleNorm), (chars "authors", .vlist authorsNorm), (chars "arxiv_id", .vstr arxivId)]
  match created with
  | .vnull => pure met
  | .vstr s => pure (dictSet met (chars "year") (.vstr (s.take 4)))
  | _ => .error .typeError

/-- `clean_raw_metadata_arxiv(met_raw)`: the record fields via
`cleanArxivCore`, then the `doi` access wrapped in `try`/`except`,
defaulting to `None` (`met['doi'] = None` in the `except` branch). -/
def cleanRawMetadataArxiv (metRaw : JVal) : Except PyErr (List (Str × JVal)) := do
  let met ← cleanArxivCore metRaw
  let doi := match jGetPath metRaw [chars "GetRecord", chars "record", chars "metadata", chars "arXiv", chars "doi"] with
    | .ok d => d
    | .error _ => .vnull
  pure (dictSet met (chars "doi") doi)

/-- Python `str(...)` on the values this script passes to it.  (For lists and
dicts Python would print a `repr`; those cases are unreachable here and are
modelled by their JSON text.) -/
def pyStr : JVal → Str
  | .vnull => chars "None"
  | .vbool true => chars "True"
  | .vbool false => chars "False"
  | .vint n => serInt n
  | .vstr s => s
  | v => serJ v

/-- `clean_raw_metadata_doi(met_raw)`: title fragments concatenated with
single spaces (leading separator sliced off), authors reordered from
`(given, family)` fields to `[family, given]`, `doi` and `year` from the
`message` payload. -/
def cleanRawMetadataDoi (metRaw : JVal) : Except PyErr (List (Str × JVal)) := do
  let titleParts ← jGetPath metRaw [chars "message", chars "title"]
  let title ← match titleParts with
    | .vlist ts => ts.foldlM (fun acc t => match t with
        | .vstr s => pure (acc ++ ' ' :: s)
        | _ => .error .typeError) ([] : Str)
    | _ => .error .typeError
  let authorsRaw ← jGetPath metRaw [chars "message", chars "author"]
  let authors ← match authorsRaw with
    | .vlist as => as.mapM (fun a => do
        let family ← jGetKey a (chars "family")
        let given ← jGetKey a (chars "given")
        pure (JVal.vlist [family, given]))
    | _ => .error .typeError
  let doi ← jGetPath metRaw [chars "message", chars "DOI"]
  let dateParts ← jGetPath metRaw [chars "message", chars "created", chars "date-parts"]
  let year ← match dateParts with
    | .vlist (first :: _) =>
      match first with
      | .vlist (y :: _) => pure (pyStr y)
      | .vlist [] => .error .indexError
      | _ => .error .typeError
    | .vlist [] => .error .indexError
    | _ => .error .typeError
  pure [(chars "title", .vstr (title.drop 1)), (chars "authors", .vlist authors),
        (chars "doi", doi), (chars "year", .vstr year)]

/-- `clean_raw_metadata_sems(met_raw)`: each author's full name is split on
whitespace and stored as `[last_token] + earlier_tokens` (the last token
first, the remaining tokens kept as separate components); splitting an
empty/whitespace-only name raises `IndexError` (`a_split[-1]` on `[]`).
`semsAuthor` is the body of the `for a in met_raw['authors']` loop. -/
def semsAuthor (a : JVal) : Except PyErr JVal := do
  let nameV ← jGetKey a (chars "name")
  match nameV with
  | .vstr nm =>
    let aSplit := pySplit nm
    match aSplit.getLast? with
    | some lastTok => pure (JVal.vlist ((lastTok :: aSplit.dropLast).map .vstr))
    | none => .error .indexError
  | _ => .error .typeError

def cleanRawMetadataSems (metRaw : JVal) : Except PyErr (List (Str × JVal)) := do
  let authorsRaw ← jGetKey metRaw (chars "authors")
  let authors ← match authorsRaw with
    | .vlist as => as.mapM semsAuthor
    | _ => .error .typeError
  let title ← jGetKey metRaw (chars "title")
  let semsId ← jGetKey metRaw (chars "sems_id")
  let met : List (Str × JVal) := [(chars "authors", .vlist authors), (chars "title", title), (chars "sems_id", semsId)]
  let met := match jGetKey metRaw (chars "arxivId") with
    | .ok v => dictSet met (chars "arxiv_id") v
    | .error _ => met
  let met := match jGetKey metRaw (chars "doi") with
    | .ok v => dictSet met (chars "doi") v
    | .error _ => met
  let met := match jGetKey metRaw (chars "year") with
    | .ok v => dictSet met (chars "year") (.vstr (pyStr v))
    | .error _ => met
  pure met

/-- `get_year(m) = m.get('year', None)`. -/
def getYear (m : List (Str × JVal)) : JVal := (jlookup m (chars "year")).getD .vnull

/-- Python truthiness of a JSON value (`if m.get('skip_doi', False):`). -/
def pyTruthy : JVal → Bool
  | .vnull => false
  | .vbool b => b
  | .vint n => n != 0
  | .vstr s => !s.isEmpty
  | .vlist xs => !xs.isEmpty
  | .vobj fs => !fs.isEmpty

/-- The DOI line of `convert_metadata_to_lines` (lines 251-253 of the
script): emitted only when `m.get('doi', None)` is not `None` and
`m.get('skip_doi', False)` is falsy. -/
def convertDoiLine (m : List (Str × JVal)) (pfx : Str) : Except PyErr Str :=
  match (jlookup m (chars "doi")).getD .vnull with
  | .vnull => .ok []
  | .vstr s =>
    if pyTruthy ((jlookup m (chars "skip_doi")).getD (.vbool false)) then .ok []
    else .ok (pfx ++ chars "https://dx.doi.org/" ++ s ++ ['\n'])
  | _ =>
    if pyTruthy ((jlookup m (chars "skip_doi")).getD (.vbool false)) then .ok []
    else .error .typeError

/-- `m[k]` where string concatenation requires a `str` value. -/
def jGetStr (m : List (Str × JVal)) (k : Str) : Except PyErr Str :=
  match jlookup m k with
  | some (.vstr s) => .ok s
  | some _ => .error .typeError
  | none => .error .keyError

/-- `convert_metadata_to_lines(m)`: the title line
`<prefix><enum> (<year>) <title> by <given> <family>, …`, an arXiv PDF line
when `arxiv_id` is present and non-`None`, and a DOI line via
`convertDoiLine`. -/
def convertMetadataToLines (m : List (Str × JVal)) : Except PyErr Str := do
  let yearPart ← match getYear m with
    | .vnull => pure [' ']
    | .vstr s => pure (' ' :: '(' :: s ++ [')', ' '])
    | _ => .error .typeError
  let lp ← jGetStr m (chars "line_prefix")
  let ec ← jGetStr m (chars "enumerator_char")
  let title ← jGetStr m (chars "title")
  let authorsV ← match jlookup m (chars "authors") with
    | some v => pure v
    | none => .error .keyError
  let authorsStr ← match authorsV with
    | .vlist as => as.foldlM (fun acc a => do
        match a with
        | .vlist xs =>
          let a1 ← match xs.drop 1 with
            | .vstr s :: _ => pure s
            | _ :: _ => .error .typeError
            | [] => .error .indexError
          let a0 ← match xs with
            | .vstr s :: _ => pure s
            | _ :: _ => .error .typeError
            | [] => .error .indexError
          pure (acc ++ ',' :: ' ' :: a1 ++ ' ' :: a0)
        | _ => .error .typeError) ([] : Str)
    | _ => .error .typeError
  let content := lp ++ ec ++ yearPart ++ title ++ chars " by " ++ authorsStr.drop 2 ++ ['\n']
  let pfx := lp ++ ' ' :: ' ' :: ec ++ [' ']
  let content ← match (jlookup m (chars "arxiv_id")).getD .vnull with
    | .vnull => pure content
    | .vstr s => pure (content ++ pfx ++ chars "https://arxiv.org/pdf/" ++ s ++ ['\n'])
    | _ => .error .typeError
  let doiLine ← convertDoiLine m pfx
  pure (content ++ doiLine)

/-- `fetch_metadata_cached`: look the cache key up; on a miss call the fetch
oracle, tag the raw record with `KEY_FIELD_NAME` and store it; in both cases
return `clean_raw(met_raw)`.  The boolean reports whether a live fetch
happened. -/
def fetchMetadataCached (srcCode srcId : Str) (cache : Cache)
    (fetchRaw : Str → Except PyErr JVal)
    (cleanRaw : JVal → Except PyErr (List (Str × JVal))) :
    Except PyErr (List (Str × JVal) × Cache × Bool) := do
  let cacheKey := getCacheKey srcCode srcId
  match jlookup cache cacheKey with
  | some metRaw => do
    let met ← cleanRaw metRaw
    pure (met, cache, false)
  | none => do
    let metRaw ← fetchRaw srcId
    let metRaw ← match metRaw with
      | .vobj fs => pure (JVal.vobj (dictSet fs KEY_FIELD_NAME (.vstr cacheKey)))
      | _ => .error .typeError
    let cache := dictSet cache cacheKey metRaw
    let met ← cleanRaw metRaw
    pure (met, cache, true)

/-- `merge_dicts(m1, m2)` from `main`: copy into `m1` every key of `m2` that
`m1` does not already have (first-seen value wins). -/
def mergeDicts (m1 m2 : List (Str × JVal)) : List (Str × JVal) :=
  m2.foldl (fun acc f => if containsKey acc f.1 then acc else acc ++ [f]) m1

/-- The body of `main`'s line loop for one input line, with the three
provider fetches as oracles: extract, resolve each provider id through the
cache, merge (descriptor first, then arXiv, DOI, Semantic Scholar) and
render; a non-reference line passes through unchanged.  Returns the text
emitted for the line, the updated cache, and whether any live fetch
happened. -/
def processLine (line : Str) (cache : Cache)
    (fetchArx fetchDoi fetchSems : Str → Except PyErr JVal) :
    Except PyErr (Str × Cache × Bool) := do
  let m? ← extractMetadata line
  match m? with
  | none => pure (line, cache, false)
  | some m => do
    let (mArx, cache, f1) ←
      if containsKey m (chars "arxiv_id") then do
        let sid ← jGetStr m (chars "arxiv_id")
        fetchMetadataCached (chars "a") sid cache fetchArx cleanRawMetadataArxiv
      else pure ([], cache, false)
    let (mDoi, cache, f2) ←
      if containsKey m (chars "doi") then do
        let sid ← jGetStr m (chars "doi")
        fetchMetadataCached (chars "d") sid cache fetchDoi cleanRawMetadataDoi
      else pure ([], cache, false)
    let (mSems, cache, f3) ←
      if containsKey m (chars "sems_id") then do
        let sid ← jGetStr m (chars "sems_id")
        fetchMetadataCached (chars "s") sid cache fetchSems cleanRawMetadataSems
      else pure ([], cache, false)
    let m := mergeDicts (mergeDicts (mergeDicts m mArx) mDoi) mSems
    let content ← convertMetadataToLines m
    pure (content, cache, f1 || f2 || f3)

/-- First-some combinator: the value an earlier dict contributes shadows a
later one. -/
def firstSome (a b : Option JVal) : Option JVal :=
  match a with
  | some v => some v
  | none => b

theorem firstSome_assoc (a b c : Option JVal) :
    firstSome (firstSome a b) c = firstSome a (firstSome b c) := by
  cases a <;> cases b <;> rfl

theorem jlookup_append_single (m : List (Str × JVal)) (k2 k : Str) (v : JVal) :
    jlookup (m ++ [(k2, v)]) k =
      firstSome (jlookup m k) (if k2 = k then some v else none) := by
  induction m with
  | nil => simp [jlookup, firstSome]
  | cons f fs ih =>
    by_cases h : f.1 = k
    · simp [jlookup, h, firstSome]
    · simp only [List.cons_append, jlookup, if_neg h, List.append_eq, ih]

theorem mergeDicts_cons (m1 : List (Str × JVal)) (f : Str × JVal) (t : List (Str × JVal)) :
    mergeDicts m1 (f :: t) =
      mergeDicts (if containsKey m1 f.1 then m1 else m1 ++ [f]) t := by
  simp only [mergeDicts, List.foldl_cons]

theorem mergeDicts_lookup (m2 m1 : List (Str × JVal)) (k : Str) :
    jlookup (mergeDicts m1 m2) k = firstSome (jlookup m1 k) (jlookup m2 k) := by
  induction m2 generalizing m1 with
  | nil =>
    cases h : jlookup m1 k <;> simp [mergeDicts, firstSome, h, jlookup]
  | cons f t ih =>
    obtain ⟨k2, v⟩ := f
    rw [mergeDicts_cons, ih]
    have hcons : jlookup ((k2, v) :: t) k = if k2 = k then some v else jlookup t k := by
      simp [jlookup]
    rw [hcons]
    by_cases hc : containsKey m1 (k2, v).1
    · rw [if_pos hc]
      by_cases hk : k2 = k
      · subst hk
        have : ∃ w, jlookup m1 k2 = some w := by
          simpa [containsKey, Option.isSome_iff_exists] using hc
        obtain ⟨w, hw⟩ := this
        simp [firstSome, hw]
      · simp [hk]
    · rw [if_neg hc, jlookup_append_single, firstSome_assoc]
      by_cases hk : k2 = k
      · simp [hk, firstSome]
      · simp [hk, firstSome]
theorem firstSome_some_left (v : JVal) (b : Option JVal) :
    firstSome (some v) b = some v := rfl

/-- C6.  When one reference line carries several provider identifiers, the
records are merged in `main`'s fixed order (descriptor, then arXiv, then
DOI, then Semantic Scholar) with first-seen-field-wins precedence: for
every field, the merged value is the first provider's value in that order,
so a field already populated by the descriptor or an earlier provider is
never overwritten by a later provider's value. -/
theorem c6_merge_first_seen_wins (m mArx mDoi mSems : List (Str × JVal)) (k : Str) :
    jlookup (mergeDicts (mergeDicts (mergeDicts m mArx) mDoi) mSems) k =
      firstSome (jlookup m k)
        (firstSome (jlookup mArx k) (firstSome (jlookup mDoi k) (jlookup mSems k))) := by
  rw [mergeDicts_lookup, mergeDicts_lookup, mergeDicts_lookup,
      firstSome_assoc, firstSome_assoc]

/-- Is the value a JSON list?  `_insert_and_listify` switches on this to
decide between collecting and appending. -/
def isVlistB : JVal → Bool
  | .vlist _ => true
  | _ => false

/-- The value `parse_generic_xml` stores for a child is never a list (it is
a dict, a string or `None`), so repeated tags listify cleanly. -/
theorem xmlChildVal_not_vlist (x : Xml) : isVlistB (xmlChildVal x) = false := by
  obtain ⟨tag, attrib, text, children⟩ := x
  cases children with
  | nil =>
    cases text <;> by_cases h : attrib.length > 0 <;> simp [xmlChildVal, h, isVlistB]
  | cons c cs =>
    by_cases h : attrib.length > 0 <;> simp [xmlChildVal, h, isVlistB]

theorem jlookup_dictSet (fs : List (Str × JVal)) (k j : Str) (v : JVal) :
    jlookup (dictSet fs k v) j = if k = j then some v else jlookup fs j := by
  induction fs with
  | nil => simp [dictSet, jlookup]
  | cons f fs ih =>
    by_cases hf : f.1 = k
    · by_cases hj : k = j <;> simp [dictSet, jlookup, hf, hj]
    · by_cases hj : f.1 = j
      · have hkj : k ≠ j := fun h => hf (by rw [hj, h])
        simp [dictSet, jlookup, hf, hj, hkj, Ne.symm hkj]
      · simp [dictSet, jlookup, hf, hj, ih]

theorem insertAndListify_lookup_same (res : List (Str × JVal)) (k : Str) (v : JVal) :
    jlookup (insertAndListify res k v) k =
      match jlookup res k with
      | none => some v
      | some (.vlist cur) => some (.vlist (cur ++ [v]))
      | some w => some (.vlist [w, v]) := by
  rcases h : jlookup res k with _ | w
  · simp [insertAndListify, h, jlookup_append_single, firstSome]
  · cases w <;> simp [insertAndListify, h, jlookup_dictSet]

theorem insertAndListify_lookup_other (res : List (Str × JVal)) (k : Str) (v : JVal)
    (j : Str) (h : k ≠ j) :
    jlookup (insertAndListify res k v) j = jlookup res j := by
  rcases hk : jlookup res k with _ | w
  · simp [insertAndListify, hk, jlookup_append_single, h, firstSome]
    cases jlookup res j <;> rfl
  · cases w <;> simp [insertAndListify, hk, jlookup_dictSet, h]

/-- The listify accumulation discipline of `_insert_and_listify`, folded over
the successive values stored under one key. -/
def listifyAcc : Option JVal → List JVal → Option JVal
  | cur, [] => cur
  | none, v :: vs => listifyAcc (some v) vs
  | some (.vlist cur), v :: vs => listifyAcc (some (.vlist (cur ++ [v]))) vs
  | some w, v :: vs => listifyAcc (some (.vlist [w, v])) vs

/-- The values the children with (normalized) tag `t` contribute, in document
order. -/
def tagOccurrences (cs : List Xml) (t : Str) : List JVal :=
  (cs.filter (fun c => normalizeTag (xmlTag c) = t)).map xmlChildVal

theorem parseXmlChildren_lookup (cs : List Xml) (res : List (Str × JVal)) (t : Str) :
    jlookup (parseXmlChildren cs res) t =
      listifyAcc (jlookup res t) (tagOccurrences cs t) := by
  induction cs generalizing res with
  | nil => simp [parseXmlChildren, tagOccurrences, listifyAcc]
  | cons c cs ih =>
    rw [parseXmlChildren, ih]
    by_cases hk : normalizeTag (xmlTag c) = t
    · rw [← hk, insertAndListify_lookup_same]
      have hocc : tagOccurrences (c :: cs) (normalizeTag (xmlTag c)) =
          xmlChildVal c :: tagOccurrences cs (normalizeTag (xmlTag c)) := by
        simp [tagOccurrences]
      rw [hocc]
      rcases jlookup res (normalizeTag (xmlTag c)) with _ | w
      · rfl
      · cases w <;> rfl
    · rw [insertAndListify_lookup_other _ _ _ _ hk]
      have hocc : tagOccurrences (c :: cs) t = tagOccurrences cs t := by
        simp [tagOccurrences, hk]
      rw [hocc]

/-- C3.  For every XML element tree: a (normalized) tag whose children
contribute exactly one value under a parent is stored as that scalar; a tag
contributing exactly two values becomes the 2-element list of them; exactly
three values become the 3-element list, in document order.  (The first
stored value is never itself a list, see `xmlChildVal_not_vlist`, which the
two- and three-occurrence cases use.) -/
theorem c3_listify_law (rt t : Str) (attrib : List (Str × Str)) (text : Option Str)
    (cs : List Xml) (v1 v2 v3 : JVal) (hv1 : isVlistB v1 = false) :
    (tagOccurrences cs t = [v1] →
      jlookup (parseGenericXml (.elem rt attrib text cs)) t = some v1) ∧
    (tagOccurrences cs t = [v1, v2] →
      jlookup (parseGenericXml (.elem rt attrib text cs)) t = some (.vlist [v1, v2])) ∧
    (tagOccurrences cs t = [v1, v2, v3] →
      jlookup (parseGenericXml (.elem rt attrib text cs)) t = some (.vlist [v1, v2, v3])) := by
  refine ⟨?_, ?_, ?_⟩ <;> intro hocc <;>
    rw [parseGenericXml, parseXmlChildren_lookup, hocc] <;>
    cases v1 <;> simp [isVlistB] at hv1 ⊢ <;> rfl

/-- Witness for C3: a parent with one, two and three `<a>` leaves (plus an
unrelated `<b>` leaf in front) flattens to a scalar, a pair and a triple. -/
theorem c3_witness :
    jlookup (parseGenericXml (.elem (chars "r") [] none
        [.elem (chars "b") [] (some (chars "z")) [],
         .elem (chars "a") [] (some (chars "x")) []])) (chars "a") =
      some (.vstr (chars "x")) ∧
    jlookup (parseGenericXml (.elem (chars "r") [] none
        [.elem (chars "b") [] (some (chars "z")) [],
         .elem (chars "a") [] (some (chars "x")) [],
         .elem (chars "a") [] (some (chars "y")) []])) (chars "a") =
      some (.vlist [.vstr (chars "x"), .vstr (chars "y")]) ∧
    jlookup (parseGenericXml (.elem (chars "r") [] none
        [.elem (chars "b") [] (some (chars "z")) [],
         .elem (chars "a") [] (some (chars "x")) [],
         .elem (chars "a") [] (some (chars "y")) [],
         .elem (chars "a") [] (some (chars "w")) []])) (chars "a") =
      some (.vlist [.vstr (chars "x"), .vstr (chars "y"), .vstr (chars "w")]) :=
  ⟨((c3_listify_law (chars "r") (chars "a") [] none _
      (.vstr (chars "x")) (.vstr (chars "y")) (.vstr (chars "w")) rfl).1 (by rfl)),
   ((c3_listify_law (chars "r") (chars "a") [] none _
      (.vstr (chars "x")) (.vstr (chars "y")) (.vstr (chars "w")) rfl).2.1 (by rfl)),
   ((c3_listify_law (chars "r") (chars "a") [] none _
      (.vstr (chars "x")) (.vstr (chars "y")) (.vstr (chars "w")) rfl).2.2 (by rfl))⟩

/-- Accumulator form of the arXiv retry loop: a run of 503 responses is
consumed one by one, sleeping each server-suggested `Retry-After` duration,
and a following success returns the flattened body after the politeness
sleep of 5. -/
theorem fetchRawMetadataArxiv_503_run (ras : List Nat) (sleeps : List Nat)
    (body : Xml) (rest : List FetchResp) :
    fetchRawMetadataArxiv (ras.map (FetchResp.httpError 503) ++ .ok body :: rest) sleeps =
      .success (parseGenericXml body) (sleeps ++ ras ++ [5]) := by
  induction ras generalizing sleeps with
  | nil => simp [fetchRawMetadataArxiv]
  | cons ra ras ih =>
    simp only [List.map_cons, List.cons_append, fetchRawMetadataArxiv, if_true,
      List.append_eq, ih]
    simp

/-- C4.  The arXiv fetch retries on HTTP 503 without any cap, sleeping the
`Retry-After` duration each time, until a fetch succeeds (any number of 503
responses followed by a success yields that success, with exactly the
suggested sleeps plus the final politeness sleep); any non-503 HTTP error is
re-raised immediately with no retry and no sleep. -/
theorem c4_arxiv_retry_503_unbounded (ras : List Nat) (body : Xml) (rest : List FetchResp)
    (code ra : Nat) (rest2 : List FetchResp) (hcode : code ≠ 503) :
    fetchRawMetadataArxiv (ras.map (FetchResp.httpError 503) ++ .ok body :: rest) [] =
      .success (parseGenericXml body) (ras ++ [5]) ∧
    fetchRawMetadataArxiv (.httpError code ra :: rest2) [] = .raised code [] := by
  constructor
  · simpa using fetchRawMetadataArxiv_503_run ras [] body rest
  · simp [fetchRawMetadataArxiv, hcode]

/-- Witness for C4: two 503 responses with `Retry-After` 11 and 7 then a
success produce sleeps `[11, 7, 5]`; a 404 is raised at once. -/
theorem c4_witness :
    fetchRawMetadataArxiv [.httpError 503 11, .httpError 503 7, .ok (.elem [] [] none [])] [] =
      .success [] [11, 7, 5] ∧
    fetchRawMetadataArxiv [.httpError 404 9] [] = .raised 404 [] :=
  c4_arxiv_retry_503_unbounded [11, 7] (.elem [] [] none []) [] 404 9 [] (by decide)

/-- C9.  A line whose stripped content is exactly the enumeration marker
`+` (nothing after it) makes `extract_metadata` index into the empty
remainder (`line_reference[0]`), raising `IndexError`: the run aborts
rather than passing the line through or returning `None`. -/
theorem c9_bare_marker_index_error (line : Str) (h : pyStrip line = ['+']) :
    extractMetadata line = .error .indexError := by
  unfold extractMetadata
  rw [h]
  rfl

/-- Witness for C9 at the line `"+"`. -/
theorem c9_witness : extractMetadata (chars "+") = .error .indexError :=
  c9_bare_marker_index_error (chars "+") rfl

/-- C2 counterexample.  For the Semantic Scholar author name
`"First Middle Last"`, `clean_raw_metadata_sems` produces the THREE-component
author `["Last", "First", "Middle"]` (the preceding tokens are kept as
separate components, not joined), so the canonical author is not the
two-component pair `["Last", "First Middle"]` the claim states. -/
theorem c2_counterexample :
    cleanRawMetadataSems (.vobj
        [(chars "authors", .vlist [.vobj [(chars "name", .vstr (chars "First Middle Last"))]]),
         (chars "title", .vstr (chars "T")),
         (chars "sems_id", .vstr (chars "S"))]) =
      .ok [(chars "authors",
              .vlist [.vlist [.vstr (chars "Last"), .vstr (chars "First"), .vstr (chars "Middle")]]),
           (chars "title", .vstr (chars "T")),
           (chars "sems_id", .vstr (chars "S"))] ∧
    cleanRawMetadataSems (.vobj
        [(chars "authors", .vlist [.vobj [(chars "name", .vstr (chars "First Middle Last"))]]),
         (chars "title", .vstr (chars "T")),
         (chars "sems_id", .vstr (chars "S"))]) ≠
      .ok [(chars "authors",
              .vlist [.vlist [.vstr (chars "Last"), .vstr (chars "First Middle")]]),
           (chars "title", .vstr (chars "T")),
           (chars "sems_id", .vstr (chars "S"))] := by
  refine ⟨rfl, ?_⟩
  intro h
  rw [show cleanRawMetadataSems (.vobj
        [(chars "authors", .vlist [.vobj [(chars "name", .vstr (chars "First Middle Last"))]]),
         (chars "title", .vstr (chars "T")),
         (chars "sems_id", .vstr (chars "S"))]) =
      .ok [(chars "authors",
              .vlist [.vlist [.vstr (chars "Last"), .vstr (chars "First"), .vstr (chars "Middle")]]),
           (chars "title", .vstr (chars "T")),
           (chars "sems_id", .vstr (chars "S"))] from rfl] at h
  simp only [Except.ok.injEq, List.cons.injEq, Prod.mk.injEq, JVal.vlist.injEq,
    JVal.vstr.injEq, and_true, true_and] at h
  exact List.cons_ne_nil _ _ h.2

theorem semsAuthor_on_name (nm : Str) (h : pySplit nm ≠ []) :
    semsAuthor (.vobj [(chars "name", .vstr nm)]) =
      .ok (.vlist (((pySplit nm).getLastD [] :: (pySplit nm).dropLast).map .vstr)) := by
  rcases hl : (pySplit nm).getLast? with _ | lastTok
  · exact absurd (List.getLast?_eq_none_iff.mp hl) h
  · have hd : (pySplit nm).getLastD [] = lastTok := by
      rw [List.getLastD_eq_getLast?, hl]
      rfl
    simp [semsAuthor, jGetKey, jlookup, Bind.bind, Except.bind, Pure.pure, Except.pure, hl, hd]

theorem semsAuthors_mapM (names : List Str) (h : ∀ nm ∈ names, pySplit nm ≠ []) :
    (names.map (fun nm => JVal.vobj [(chars "name", .vstr nm)])).mapM semsAuthor =
      .ok (names.map (fun nm =>
        JVal.vlist (((pySplit nm).getLastD [] :: (pySplit nm).dropLast).map .vstr))) := by
  induction names with
  | nil => rfl
  | cons nm names ih =>
    have h1 := semsAuthor_on_name nm (h nm (by simp))
    have h2 := ih (fun x hx => h x (by simp [hx]))
    simp only [List.map_cons, List.mapM_cons, h1, h2]
    rfl

/-- C2 amended.  For a Semantic Scholar payload whose authors are single
full-name strings, `clean_raw_metadata_sems` splits each name on whitespace
and stores the author as the last token followed by all preceding tokens as
separate components (`[a_split[-1]] + a_split[:-1]`): the given-name tokens
are not joined into one string, so a k-token name yields k components, not
a two-component pair (the renderer later uses only components 1 and 0). -/
theorem c2_sems_author_split (names : List Str) (title semsId : JVal)
    (h : ∀ nm ∈ names, pySplit nm ≠ []) :
    cleanRawMetadataSems (.vobj
        [(chars "authors", .vlist (names.map (fun nm => .vobj [(chars "name", .vstr nm)]))),
         (chars "title", title),
         (chars "sems_id", semsId)]) =
      .ok [(chars "authors",
              .vlist (names.map (fun nm =>
                JVal.vlist (((pySplit nm).getLastD [] :: (pySplit nm).dropLast).map .vstr)))),
           (chars "title", title),
           (chars "sems_id", semsId)] := by
  have hm := semsAuthors_mapM names h
  simp only [cleanRawMetadataSems, jGetKey, jlookup, reduceIte, Bind.bind, Except.bind, hm]
  simp [chars, dictSet, Pure.pure, Except.pure]

/-- Witness for C2 amended: the name `"First Middle Last"` splits into the
three components `["Last", "First", "Middle"]`. -/
theorem c2_witness :
    cleanRawMetadataSems (.vobj
        [(chars "authors", .vlist [.vobj [(chars "name", .vstr (chars "First Middle Last"))]]),
         (chars "title", .vstr (chars "T")),
         (chars "sems_id", .vstr (chars "S"))]) =
      .ok [(chars "authors",
              .vlist [.vlist [.vstr (chars "Last"), .vstr (chars "First"), .vstr (chars "Middle")]]),
           (chars "title", .vstr (chars "T")),
           (chars "sems_id", .vstr (chars "S"))] := by
  have := c2_sems_author_split [chars "First Middle Last"]
    (.vstr (chars "T")) (.vstr (chars "S"))
    (by intro nm hnm; rw [List.mem_singleton] at hnm; subst hnm; decide)
  simpa using this

/-- C5.  For every line that is a candidate reference (stripped line starts
with the `+` marker) whose remainder is wrapped in `{`…`}` but whose payload
is not valid JSON, `extract_metadata` propagates the `json.loads` failure as
an error: it never returns `None` for such a line, so the line is never
silently passed through as plain text. -/
theorem c5_malformed_payload_raises (line : Str) (rest rrest : Str) (e : PyErr)
    (h1 : pyStrip line = '+' :: rest)
    (h2 : pyStrip rest = '{' :: rrest)
    (h3 : ('{' :: rrest).getLastD ' ' = '}')
    (h4 : jsonLoads ('{' :: rrest) = .error e) :
    extractMetadata line = .error e := by
  simp [extractMetadata, extractCore, extractRef, h1, h2, h3, h4, ENUMERATION_CHARS]
  rwa [← List.getLastD_eq_getLast?]

/-- Witness for C5 at the line `"+ {a}"` (braces present, payload `a` is not
JSON): the run fails with the decode error. -/
theorem c5_witness : extractMetadata (chars "+ \x7ba\x7d") = .error .jsonError :=
  c5_malformed_payload_raises (chars "+ \x7ba\x7d") (chars " \x7ba\x7d") (chars "a\x7d")
    .jsonError rfl rfl rfl rfl

theorem natCharsAux_extra (n : Nat) : ∀ f1 f2, n < f1 → n < f2 →
    natCharsAux f1 n = natCharsAux f2 n := by
  induction n using Nat.strong_induction_on with
  | _ n ih =>
    intro f1 f2 h1 h2
    match f1, f2 with
    | g1 + 1, g2 + 1 =>
      simp only [natCharsAux]
      by_cases hn : n < 10
      · simp [hn]
      · have hd : n / 10 < n := Nat.div_lt_self (by omega) (by omega)
        simp only [hn, if_false]
        rw [ih (n / 10) hd g1 g2 (by omega) (by omega)]

theorem natChars_eq (n : Nat) : natChars n =
    if n < 10 then [Nat.digitChar n] else natChars (n / 10) ++ [Nat.digitChar (n % 10)] := by
  show natCharsAux (n + 1) n = _
  rw [show natCharsAux (n + 1) n = if n < 10 then [Nat.digitChar n]
      else natCharsAux n (n / 10) ++ [Nat.digitChar (n % 10)] from rfl]
  by_cases hn : n < 10
  · simp [hn]
  · have hd : n / 10 < n := Nat.div_lt_self (by omega) (by omega)
    simp only [hn, if_false]
    rw [natCharsAux_extra (n / 10) n (n / 10 + 1) hd (by omega)]
    rfl

theorem digitChar_isDigit (d : Nat) (h : d < 10) : isDigit (Nat.digitChar d) = true := by
  interval_cases d <;> decide

theorem digitChar_val (d : Nat) (h : d < 10) : (Nat.digitChar d).toNat - 48 = d := by
  interval_cases d <;> decide

theorem natChars_all_digits (n : Nat) : ∀ c ∈ natChars n, isDigit c = true := by
  induction n using Nat.strong_induction_on with
  | _ n ih =>
    intro c hc
    rw [natChars_eq] at hc
    by_cases hn : n < 10
    · simp [hn] at hc
      subst hc
      exact digitChar_isDigit n hn
    · have hd : n / 10 < n := Nat.div_lt_self (by omega) (by omega)
      simp [hn] at hc
      rcases hc with hc | hc
      · exact ih (n / 10) hd c hc
      · subst hc
        exact digitChar_isDigit (n % 10) (Nat.mod_lt n (by omega))

theorem natChars_ne_nil (n : Nat) : natChars n ≠ [] := by
  rw [natChars_eq]
  by_cases hn : n < 10 <;> simp [hn]

theorem decVal_append (xs : Str) (c : Char) :
    decVal (xs ++ [c]) = 10 * decVal xs + (c.toNat - 48) := by
  simp [decVal, List.foldl_append]
  ring

theorem decVal_natChars (n : Nat) : decVal (natChars n) = n := by
  induction n using Nat.strong_induction_on with
  | _ n ih =>
    rw [natChars_eq]
    by_cases hn : n < 10
    · simp [hn, decVal, List.foldl]
      exact digitChar_val n hn
    · have hd : n / 10 < n := Nat.div_lt_self (by omega) (by omega)
      simp only [hn, if_false, decVal_append, ih (n / 10) hd,
        digitChar_val (n % 10) (Nat.mod_lt n (by omega))]
      omega

theorem takeWhile_append_of_all (p : Char → Bool) (l1 l2 : Str)
    (h1 : ∀ c ∈ l1, p c = true) :
    (l1 ++ l2).takeWhile p = l1 ++ l2.takeWhile p ∧
    (l1 ++ l2).dropWhile p = l2.dropWhile p := by
  induction l1 with
  | nil => simp
  | cons c l1 ih =>
    have hc : p c = true := h1 c (by simp)
    have := ih (fun x hx => h1 x (by simp [hx]))
    simp [List.takeWhile, List.dropWhile, hc, this.1, this.2]

/-- Guard used in the round-trip: when the serialized value is an integer,
the following text must not begin with a digit (in real inputs it begins
with `,`, `}`, `]` or ends the document). -/
def numGuard (w : JVal) (rest : Str) : Prop :=
  match w, rest with
  | .vint _, c :: _ => isDigit c = false
  | _, _ => True

theorem numGuard_of_head (w : JVal) (c : Char) (r : Str) (h : isDigit c = false) :
    numGuard w (c :: r) := by
  cases w <;> trivial

theorem numGuard_nil (w : JVal) : numGuard w [] := by
  cases w <;> trivial

theorem parseDigits_natChars (n : Nat) (rest : Str)
    (hg : ∀ c r, rest = c :: r → isDigit c = false) :
    parseDigits (natChars n ++ rest) = some (n, rest) := by
  have hall := natChars_all_digits n
  have htake := (takeWhile_append_of_all isDigit (natChars n) rest hall).1
  have hrest : rest.takeWhile isDigit = [] := by
    cases rest with
    | nil => rfl
    | cons c r => simp [List.takeWhile, hg c r rfl]
  rw [parseDigits, htake, hrest, List.append_nil]
  have hne := natChars_ne_nil n
  simp only [List.isEmpty_iff, hne, if_false]
  rw [decVal_natChars]
  congr 1
  rw [List.drop_left]

theorem hexVal_hexDigitChar (d : Nat) (h : d < 16) : hexVal (hexDigitChar d) = some d := by
  interval_cases d <;> decide

theorem char_toNat_valid (c : Char) :
    c.toNat < 0xD800 ∨ (0xDFFF < c.toNat ∧ c.toNat < 0x110000) := c.valid

theorem psb_u_pair (n m : Nat) (a b c d e f g h : Char) (tail s rest : Str)
    (h4a : hexVal4 a b c d = some n) (h4b : hexVal4 e f g h = some m)
    (hn : 0xD800 ≤ n ∧ n < 0xDC00) (hm : 0xDC00 ≤ m ∧ m < 0xE000)
    (ih : parseStringBody tail = some (s, rest)) :
    parseStringBody ('\\' :: 'u' :: a :: b :: c :: d :: '\\' :: 'u' :: e :: f :: g :: h :: tail) =
      some (Char.ofNat (0x10000 + (n - 0xD800) * 0x400 + (m - 0xDC00)) :: s, rest) := by
  simp [parseStringBody, h4a, h4b, hn.1, hn.2, hm.1, hm.2, ih]

theorem psb_u_single (n : Nat) (a b c d : Char) (tail s rest : Str)
    (h4 : hexVal4 a b c d = some n)
    (hn1 : ¬(0xD800 ≤ n ∧ n < 0xDC00)) (hn2 : ¬(0xDC00 ≤ n ∧ n < 0xE000))
    (ih : parseStringBody tail = some (s, rest)) :
    parseStringBody ('\\' :: 'u' :: a :: b :: c :: d :: tail) =
      some (Char.ofNat n :: s, rest) := by
  simp [parseStringBody, h4, hn1, hn2, ih]

theorem hexVal4_hex4D (n : Nat) (h : n < 0x10000) :
    hexVal4 (hexDigitChar (n / 4096 % 16)) (hexDigitChar (n / 256 % 16))
      (hexDigitChar (n / 16 % 16)) (hexDigitChar (n % 16)) = some n := by
  rw [hexVal4]
  simp only [hexVal_hexDigitChar _ (Nat.mod_lt _ (by omega)), Option.bind_some]
  show some (n / 4096 % 16 * 4096 + n / 256 % 16 * 256 + n / 16 % 16 * 16 + n % 16) = some n
  congr 1
  omega

theorem parseStringBody_escStr (s : Str) : ∀ (rest : Str),
    parseStringBody (escStr s ++ '"' :: rest) = some (s, rest) := by
  induction s with
  | nil => intro rest; rfl
  | cons c s ih =>
    intro rest
    rw [show escStr (c :: s) = escapeChar c ++ escStr s from rfl, List.append_assoc]
    have hv := char_toNat_valid c
    rw [escapeChar]
    by_cases h1 : c = '"'
    · subst h1
      simp [parseStringBody, unescapeChar, ih rest]
    rw [if_neg h1]
    by_cases h2 : c = '\\'
    · subst h2
      simp [parseStringBody, unescapeChar, ih rest]
    rw [if_neg h2]
    by_cases h3 : c = '\n'
    · subst h3
      simp [parseStringBody, unescapeChar, ih rest]
    rw [if_neg h3]
    by_cases h4 : c = '\t'
    · subst h4
      simp [parseStringBody, unescapeChar, ih rest]
    rw [if_neg h4]
    by_cases h5 : c = '\r'
    · subst h5
      simp [parseStringBody, unescapeChar, ih rest]
    rw [if_neg h5]
    by_cases h6 : c = '\x08'
    · subst h6
      simp [parseStringBody, unescapeChar, ih rest]
    rw [if_neg h6]
    by_cases h7 : c = '\x0c'
    · subst h7
      simp [parseStringBody, unescapeChar, ih rest]
    rw [if_neg h7]
    by_cases h8 : c.toNat < 0x20
    · rw [if_pos h8]
      simp only [hex4, List.cons_append, List.nil_append]
      rw [psb_u_single c.toNat _ _ _ _ _ s rest
        (hexVal4_hex4D c.toNat (by omega)) (by omega) (by omega) (ih rest)]
      rw [Char.ofNat_toNat]
    rw [if_neg h8]
    by_cases h9 : c.toNat < 0x80
    · rw [if_pos h9]
      simp [parseStringBody, h1, h2, h8, ih rest]
    rw [if_neg h9]
    by_cases h10 : c.toNat < 0x10000
    · rw [if_pos h10]
      simp only [hex4, List.cons_append, List.nil_append]
      rw [psb_u_single c.toNat _ _ _ _ _ s rest
        (hexVal4_hex4D c.toNat h10) (by omega) (by omega) (ih rest)]
      rw [Char.ofNat_toNat]
    rw [if_neg h10]
    simp only [hex4, List.cons_append, List.nil_append, List.append_assoc]
    rw [psb_u_pair (0xD800 + (c.toNat - 0x10000) / 0x400) (0xDC00 + (c.toNat - 0x10000) % 0x400)
      _ _ _ _ _ _ _ _ _ s rest
      (hexVal4_hex4D _ (by omega))
      (hexVal4_hex4D _ (by
        have := Nat.mod_lt (c.toNat - 0x10000) (show 0 < 0x400 by omega)
        omega))
      (by constructor <;> omega)
      (by
        have := Nat.mod_lt (c.toNat - 0x10000) (show 0 < 0x400 by omega)
        constructor <;> omega)
      (ih rest)]
    have harith : 0x10000 + (0xD800 + (c.toNat - 0x10000) / 0x400 - 0xD800) * 0x400 +
        (0xDC00 + (c.toNat - 0x10000) % 0x400 - 0xDC00) = c.toNat := by
      have := Nat.div_add_mod (c.toNat - 0x10000) 0x400
      omega
    rw [harith, Char.ofNat_toNat]

mutual
/-- Fuel sufficient for `parseVal` to parse the serialization of a value
(one unit per nesting step and per member/element). -/
def jfuel : JVal → Nat
  | .vnull => 1
  | .vbool _ => 1
  | .vint _ => 1
  | .vstr _ => 1
  | .vlist xs => 1 + jfuelE xs
  | .vobj fs => 1 + jfuelM fs
def jfuelE : List JVal → Nat
  | [] => 0
  | x :: xs => 1 + max (jfuel x) (jfuelE xs)
def jfuelM : List (Str × JVal) → Nat
  | [] => 0
  | f :: fs => 1 + max (jfuel f.2) (jfuelM fs)
end

theorem jfuel_pos (w : JVal) : 1 ≤ jfuel w := by
  cases w <;> simp [jfuel]

theorem isDigit_bounds (c : Char) (h : isDigit c = true) : 48 ≤ c.toNat ∧ c.toNat ≤ 57 := by
  simpa [isDigit] using h

theorem isDigit_facts (c : Char) (h : isDigit c = true) :
    jsonWs c = false ∧ c ≠ '{' ∧ c ≠ '[' ∧ c ≠ '"' ∧ c ≠ 'n' ∧ c ≠ 't' ∧ c ≠ 'f' ∧
    c ≠ '-' ∧ c ≠ ']' ∧ c ≠ '}' := by
  have hb := isDigit_bounds c h
  refine ⟨?_, ?_, ?_, ?_, ?_, ?_, ?_, ?_, ?_, ?_⟩
  · simp only [jsonWs, Bool.or_eq_false_iff, decide_eq_false_iff_not]
    refine ⟨⟨⟨fun h' => ?_, fun h' => ?_⟩, fun h' => ?_⟩, fun h' => ?_⟩ <;>
      (rw [h'] at hb; exact absurd hb (by decide))
  all_goals exact fun h' => by rw [h'] at hb; exact absurd hb (by decide)

/-- Head shape of a serialized value: non-empty, starts with a non-whitespace
character that is not a closing bracket. -/
theorem serJ_head_shape (w : JVal) :
    ∃ c cs, serJ w = c :: cs ∧ jsonWs c = false ∧ c ≠ ']' ∧ c ≠ '}' := by
  cases w with
  | vnull => exact ⟨'n', _, rfl, by decide, by decide, by decide⟩
  | vbool b =>
    cases b
    · exact ⟨'f', _, rfl, by decide, by decide, by decide⟩
    · exact ⟨'t', _, rfl, by decide, by decide, by decide⟩
  | vstr s => exact ⟨'"', _, rfl, by decide, by decide, by decide⟩
  | vlist xs => exact ⟨'[', _, rfl, by decide, by decide, by decide⟩
  | vobj fs => exact ⟨'{', _, rfl, by decide, by decide, by decide⟩
  | vint n =>
    show ∃ c cs, serInt n = c :: cs ∧ _
    rw [serInt]
    by_cases hn : n < 0
    · rw [if_pos hn]
      exact ⟨'-', _, rfl, by decide, by decide, by decide⟩
    · rw [if_neg hn]
      rcases hne : natChars n.natAbs with _ | ⟨c, cs⟩
      · exact absurd hne (natChars_ne_nil _)
      · have hd : isDigit c = true := natChars_all_digits _ c (by rw [hne]; simp)
        have hf := isDigit_facts c hd
        exact ⟨c, cs, rfl, hf.1, hf.2.2.2.2.2.2.2.2.1, hf.2.2.2.2.2.2.2.2.2⟩

theorem skipWs_not_ws (c : Char) (cs : Str) (h : jsonWs c = false) :
    skipWs (c :: cs) = c :: cs := by
  simp [skipWs, List.dropWhile, h]

theorem skipWs_space (cs : Str) : skipWs (' ' :: cs) = skipWs cs := rfl

theorem parseVal_congr (F : Nat) (cs1 cs2 : Str) (h : skipWs cs1 = skipWs cs2) :
    parseVal F cs1 = parseVal F cs2 := by
  cases F with
  | zero => rfl
  | succ F => rw [parseVal, parseVal, h]

theorem dictSet_fresh (acc : List (Str × JVal)) (k : Str) (v : JVal)
    (h : jlookup acc k = none) : dictSet acc k v = acc ++ [(k, v)] := by
  induction acc with
  | nil => rfl
  | cons a acc ih =>
    rw [jlookup] at h
    by_cases ha : a.1 = k
    · rw [if_pos ha] at h
      exact absurd h (by simp)
    · rw [if_neg ha] at h
      rw [dictSet, if_neg ha, ih h]
      rfl

theorem nodup_append_cons_head (acc : List (Str × JVal)) (k : Str) (v : JVal)
    (fs : List (Str × JVal)) (h : nodupKeysB (acc ++ (k, v) :: fs) = true) :
    jlookup acc k = none := by
  induction acc with
  | nil => rfl
  | cons a acc ih =>
    rw [List.cons_append, nodupKeysB, Bool.and_eq_true] at h
    have hany := h.1
    have hne : ¬a.1 = k := by
      intro he
      rw [Bool.not_eq_true', List.any_eq_false] at hany
      have := hany (k, v) (by simp)
      simp [he] at this
    rw [jlookup, if_neg hne]
    exact ih h.2

/-- What follows the first member in a serialized object body. -/
def serMTail : List (Str × JVal) → Str
  | [] => []
  | g :: gs => ',' :: ' ' :: serM (g :: gs)

/-- What follows the first element in a serialized array body. -/
def serLTail : List JVal → Str
  | [] => []
  | y :: ys => ',' :: ' ' :: serL (y :: ys)

theorem serM_cons (f : Str × JVal) (fs : List (Str × JVal)) :
    serM (f :: fs) = '"' :: escStr f.1 ++ '"' :: ':' :: ' ' :: serJ f.2 ++ serMTail fs := by
  cases fs <;> simp [serM, serMTail]

theorem serL_cons (x : JVal) (xs : List JVal) :
    serL (x :: xs) = serJ x ++ serLTail xs := by
  cases xs <;> simp [serL, serLTail]

theorem numGuard_serMTail (v : JVal) (fs : List (Str × JVal)) (rest : Str) :
    numGuard v (serMTail fs ++ '}' :: rest) := by
  cases fs <;> exact numGuard_of_head _ _ _ (by decide)

theorem numGuard_serLTail (v : JVal) (xs : List JVal) (rest : Str) :
    numGuard v (serLTail xs ++ ']' :: rest) := by
  cases xs <;> exact numGuard_of_head _ _ _ (by decide)

theorem parseVal_cons (F : Nat) (cs : Str) (c : Char) (rest : Str)
    (h : skipWs cs = c :: rest) :
    parseVal (F + 1) cs =
      parseValHead c rest (fun r2 => parseMembers F r2 [])
        (fun r2 => parseElems F r2 []) := by
  simp only [parseVal, h]

theorem numGuard_int_elim (n : Int) (rest : Str) (hg : numGuard (.vint n) rest) :
    ∀ c r, rest = c :: r → isDigit c = false := by
  intro c r h
  subst h
  exact hg

theorem parseVal_ser_null (Fp : Nat) (rest : Str) :
    parseVal (Fp + 1) (serJ .vnull ++ rest) = some (.vnull, rest) := by
  rw [parseVal_cons Fp _ 'n' (chars "ull" ++ rest) (by rfl), parseValHead.eq_def]
  rw [if_neg (by decide), if_neg (by decide), if_neg (by decide), if_pos rfl]
  rfl

theorem parseVal_ser_bool (Fp : Nat) (b : Bool) (rest : Str) :
    parseVal (Fp + 1) (serJ (.vbool b) ++ rest) = some (.vbool b, rest) := by
  cases b
  · rw [parseVal_cons Fp _ 'f' (chars "alse" ++ rest) (by rfl), parseValHead.eq_def]
    rw [if_neg (by decide), if_neg (by decide), if_neg (by decide), if_neg (by decide),
        if_neg (by decide), if_pos rfl]
    rfl
  · rw [parseVal_cons Fp _ 't' (chars "rue" ++ rest) (by rfl), parseValHead.eq_def]
    rw [if_neg (by decide), if_neg (by decide), if_neg (by decide), if_neg (by decide),
        if_pos rfl]
    rfl

theorem parseVal_ser_str (Fp : Nat) (s : Str) (rest : Str) :
    parseVal (Fp + 1) (serJ (.vstr s) ++ rest) = some (.vstr s, rest) := by
  rw [show serJ (.vstr s) ++ rest = '"' :: (escStr s ++ '"' :: rest) by
    show ('"' :: escStr s ++ ['"']) ++ rest = _
    simp]
  rw [parseVal_cons Fp _ '"' (escStr s ++ '"' :: rest)
    (skipWs_not_ws '"' _ (by decide)), parseValHead.eq_def]
  rw [if_neg (by decide), if_neg (by decide), if_pos rfl, parseStringBody_escStr]

theorem parseVal_ser_int (Fp : Nat) (n : Int) (rest : Str) (hg : numGuard (.vint n) rest) :
    parseVal (Fp + 1) (serJ (.vint n) ++ rest) = some (.vint n, rest) := by
  have hgr := numGuard_int_elim n rest hg
  show parseVal (Fp + 1) (serInt n ++ rest) = _
  rw [serInt]
  by_cases hn : n < 0
  · rw [if_pos hn, List.cons_append]
    rw [parseVal_cons Fp _ '-' (natChars n.natAbs ++ rest)
      (skipWs_not_ws '-' _ (by decide)), parseValHead.eq_def]
    rw [if_neg (by decide), if_neg (by decide), if_neg (by decide), if_neg (by decide),
        if_neg (by decide), if_neg (by decide), if_pos rfl,
        parseDigits_natChars n.natAbs rest hgr]
    show some (JVal.vint (-(n.natAbs : Int)), rest) = some (JVal.vint n, rest)
    have heq : (-(n.natAbs : Int)) = n := by omega
    rw [heq]
  · rw [if_neg hn]
    rcases hne : natChars n.natAbs with _ | ⟨c, cs⟩
    · exact absurd hne (natChars_ne_nil _)
    have hd : isDigit c = true := natChars_all_digits _ c (by rw [hne]; simp)
    have hf := isDigit_facts c hd
    rw [List.cons_append]
    rw [parseVal_cons Fp _ c (cs ++ rest) (skipWs_not_ws c _ hf.1), parseValHead.eq_def]
    rw [if_neg hf.2.1, if_neg hf.2.2.1, if_neg hf.2.2.2.1, if_neg hf.2.2.2.2.1,
        if_neg hf.2.2.2.2.2.1, if_neg hf.2.2.2.2.2.2.1, if_neg hf.2.2.2.2.2.2.2.1,
        if_pos hd, ← List.cons_append, ← hne,
        parseDigits_natChars n.natAbs rest hgr]
    show some (JVal.vint ((n.natAbs : Nat) : Int), rest) = some (JVal.vint n, rest)
    have heq : ((n.natAbs : Nat) : Int) = n := by omega
    rw [heq]

theorem parseElems_space (F : Nat) (cs : Str) (acc : List JVal) :
    parseElems F (' ' :: cs) acc = parseElems F cs acc := by
  cases F with
  | zero => rfl
  | succ Fp =>
    rw [parseElems, parseElems,
      parseVal_congr Fp (' ' :: cs) cs (by rw [skipWs_space])]

mutual
theorem parseVal_ser (F : Nat) (w : JVal) (rest : Str)
    (hwf : jwfB w = true) (hfuel : jfuel w ≤ F) (hg : numGuard w rest) :
    parseVal F (serJ w ++ rest) = some (w, rest) := by
  cases F with
  | zero => exact absurd hfuel (by have := jfuel_pos w; omega)
  | succ Fp =>
    cases w with
    | vnull => exact parseVal_ser_null Fp rest
    | vbool b => exact parseVal_ser_bool Fp b rest
    | vint n => exact parseVal_ser_int Fp n rest hg
    | vstr s => exact parseVal_ser_str Fp s rest
    | vlist xs =>
      cases xs with
      | nil =>
        rw [show serJ (.vlist []) ++ rest = '[' :: (']' :: rest) by rfl]
        rw [parseVal_cons Fp _ '[' (']' :: rest)
          (skipWs_not_ws '[' _ (by decide)), parseValHead.eq_def]
        rw [if_neg (by decide), if_pos rfl,
          skipWs_not_ws ']' _ (by decide)]
        rfl
      | cons x xs' =>
        have hfE : jfuelE (x :: xs') ≤ Fp := by
          rw [show jfuel (.vlist (x :: xs')) = 1 + jfuelE (x :: xs') from rfl] at hfuel
          omega
        have hwfL : jwfL (x :: xs') = true := hwf
        rw [show serJ (.vlist (x :: xs')) ++ rest =
          '[' :: (serL (x :: xs') ++ ']' :: rest) by
            show ('[' :: serL (x :: xs') ++ [']']) ++ rest = _
            simp]
        rw [parseVal_cons Fp _ '[' (serL (x :: xs') ++ ']' :: rest)
          (skipWs_not_ws '[' _ (by decide)), parseValHead.eq_def]
        rw [if_neg (by decide), if_pos rfl]
        obtain ⟨c, cs, hser, hws, hnrb, _⟩ := serJ_head_shape x
        have hhead : serL (x :: xs') ++ ']' :: rest =
            c :: (cs ++ (serLTail xs' ++ ']' :: rest)) := by
          rw [serL_cons, hser]
          simp
        rw [hhead, skipWs_not_ws c _ hws]
        split
        · next r2 heq =>
          exact absurd (List.cons.inj heq).1 hnrb
        · next hne2 =>
          rw [← hhead]
          exact parseElems_ser Fp (x :: xs') rest (by simp) hfE hwfL []
    | vobj fs =>
      cases fs with
      | nil =>
        rw [show serJ (.vobj []) ++ rest = '{' :: ('}' :: rest) by rfl]
        rw [parseVal_cons Fp _ '{' ('}' :: rest)
          (skipWs_not_ws '{' _ (by decide)), parseValHead.eq_def]
        rw [if_pos rfl, skipWs_not_ws '}' _ (by decide)]
        rfl
      | cons f fs' =>
        have hfM : jfuelM (f :: fs') ≤ Fp := by
          rw [show jfuel (.vobj (f :: fs')) = 1 + jfuelM (f :: fs') from rfl] at hfuel
          omega
        have hand : nodupKeysB (f :: fs') = true ∧ jwfM (f :: fs') = true := by
          have : (nodupKeysB (f :: fs') && jwfM (f :: fs')) = true := hwf
          exact (Bool.and_eq_true _ _).mp this
        rw [show serJ (.vobj (f :: fs')) ++ rest =
          '{' :: (serM (f :: fs') ++ '}' :: rest) by
            show ('{' :: serM (f :: fs') ++ ['}']) ++ rest = _
            simp]
        rw [parseVal_cons Fp _ '{' (serM (f :: fs') ++ '}' :: rest)
          (skipWs_not_ws '{' _ (by decide)), parseValHead.eq_def]
        rw [if_pos rfl]
        have hhead : serM (f :: fs') ++ '}' :: rest =
            '"' :: (escStr f.1 ++ '"' :: ':' :: ' ' :: serJ f.2 ++ (serMTail fs' ++ '}' :: rest)) := by
          rw [serM_cons]
          simp
        rw [hhead, skipWs_not_ws '"' _ (by decide)]
        split
        · next r2 heq =>
          exact absurd (List.cons.inj heq).1 (by decide)
        · next hne2 =>
          rw [← hhead]
          exact parseMembers_ser Fp (f :: fs') [] rest (by simp) hfM hand.2
            (by simpa using hand.1)
termination_by F

theorem parseMembers_ser (F : Nat) (fs acc : List (Str × JVal)) (rest : Str)
    (hne : fs ≠ []) (hfuel : jfuelM fs ≤ F) (hwf : jwfM fs = true)
    (hnd : nodupKeysB (acc ++ fs) = true) :
    parseMembers F (serM fs ++ '}' :: rest) acc = some (.vobj (acc ++ fs), rest) := by
  cases fs with
  | nil => exact absurd rfl hne
  | cons f fs' =>
    cases F with
    | zero =>
      exact absurd hfuel (by rw [show jfuelM (f :: fs') = 1 + max (jfuel f.2) (jfuelM fs') from rfl]; omega)
    | succ Fp =>
      obtain ⟨k, v⟩ := f
      have hfv : jfuel v ≤ Fp := by
        rw [show jfuelM ((k, v) :: fs') = 1 + max (jfuel (k, v).2) (jfuelM fs') from rfl] at hfuel
        simp at hfuel
        omega
      have hffs : jfuelM fs' ≤ Fp := by
        rw [show jfuelM ((k, v) :: fs') = 1 + max (jfuel (k, v).2) (jfuelM fs') from rfl] at hfuel
        omega
      have hwfv : jwfB v = true ∧ jwfM fs' = true := by
        have : (jwfB (k, v).2 && jwfM fs') = true := hwf
        exact (Bool.and_eq_true _ _).mp this
      rw [serM_cons]
      rw [show ('"' :: escStr (k, v).1 ++ '"' :: ':' :: ' ' :: serJ (k, v).2 ++ serMTail fs') ++ '}' :: rest
          = '"' :: (escStr k ++ '"' :: (':' :: (' ' :: (serJ v ++ (serMTail fs' ++ '}' :: rest))))) by simp]
      rw [parseMembers]
      try simp only []
      rw [parseStringBody_escStr]
      try simp only []
      rw [skipWs_not_ws ':' _ (by decide)]
      try simp only []
      rw [parseVal_congr Fp (' ' :: (serJ v ++ (serMTail fs' ++ '}' :: rest)))
        (serJ v ++ (serMTail fs' ++ '}' :: rest)) (by rw [skipWs_space])]
      rw [parseVal_ser Fp v (serMTail fs' ++ '}' :: rest) hwfv.1 hfv
        (numGuard_serMTail v fs' rest)]
      try simp only []
      rw [dictSet_fresh acc k v (nodup_append_cons_head acc k v fs' hnd)]
      cases fs' with
      | nil =>
        rw [show serMTail ([] : List (Str × JVal)) ++ '}' :: rest = '}' :: rest from rfl]
        rw [skipWs_not_ws '}' _ (by decide)]
        rfl
      | cons g gs =>
        rw [show serMTail (g :: gs) ++ '}' :: rest =
          ',' :: (' ' :: (serM (g :: gs) ++ '}' :: rest)) by simp [serMTail]]
        rw [skipWs_not_ws ',' _ (by decide)]
        try simp only []
        rw [skipWs_space]
        have hsk : skipWs (serM (g :: gs) ++ '}' :: rest) = serM (g :: gs) ++ '}' :: rest := by
          rw [show serM (g :: gs) ++ '}' :: rest =
            '"' :: (escStr g.1 ++ '"' :: ':' :: ' ' :: serJ g.2 ++ (serMTail gs ++ '}' :: rest)) by
              rw [serM_cons]
              simp]
          rw [skipWs_not_ws '"' _ (by decide)]
        rw [hsk]
        rw [parseMembers_ser Fp (g :: gs) (acc ++ [(k, v)]) rest (by simp) hffs hwfv.2
          (by simpa [List.append_assoc] using hnd)]
        simp
termination_by F

theorem parseElems_ser (F : Nat) (xs : List JVal) (rest : Str) (hne : xs ≠ [])
    (hfuel : jfuelE xs ≤ F) (hwf : jwfL xs = true) : ∀ (acc : List JVal),
    parseElems F (serL xs ++ ']' :: rest) acc = some (.vlist (acc ++ xs), rest) := by
  cases xs with
  | nil => exact absurd rfl hne
  | cons x xs' =>
    cases F with
    | zero =>
      exact absurd hfuel (by rw [show jfuelE (x :: xs') = 1 + max (jfuel x) (jfuelE xs') from rfl]; omega)
    | succ Fp =>
      intro acc
      have hfv : jfuel x ≤ Fp := by
        rw [show jfuelE (x :: xs') = 1 + max (jfuel x) (jfuelE xs') from rfl] at hfuel
        omega
      have hfxs : jfuelE xs' ≤ Fp := by
        rw [show jfuelE (x :: xs') = 1 + max (jfuel x) (jfuelE xs') from rfl] at hfuel
        omega
      have hwfx : jwfB x = true ∧ jwfL xs' = true := by
        have : (jwfB x && jwfL xs') = true := hwf
        exact (Bool.and_eq_true _ _).mp this
      rw [parseElems]
      rw [show serL (x :: xs') ++ ']' :: rest = serJ x ++ (serLTail xs' ++ ']' :: rest) by
        rw [serL_cons]
        simp]
      rw [parseVal_ser Fp x (serLTail xs' ++ ']' :: rest) hwfx.1 hfv
        (numGuard_serLTail x xs' rest)]
      try simp only []
      cases xs' with
      | nil =>
        rw [show serLTail ([] : List JVal) ++ ']' :: rest = ']' :: rest from rfl]
        rw [skipWs_not_ws ']' _ (by decide)]
        rfl
      | cons y ys =>
        rw [show serLTail (y :: ys) ++ ']' :: rest =
          ',' :: (' ' :: (serL (y :: ys) ++ ']' :: rest)) by simp [serLTail]]
        rw [skipWs_not_ws ',' _ (by decide)]
        try simp only []
        rw [parseElems_space]
        rw [parseElems_ser Fp (y :: ys) rest (by simp) hfxs hwfx.2 (acc ++ [x])]
        simp
termination_by F
end

mutual
theorem jfuel_le_len : ∀ (w : JVal), jfuel w ≤ (serJ w).length
  | .vnull => by simp [jfuel, serJ, chars]
  | .vbool b => by cases b <;> simp [jfuel, serJ, chars]
  | .vint n => by
    have := natChars_ne_nil n.natAbs
    have hlen : 1 ≤ (natChars n.natAbs).length := by
      cases hne : natChars n.natAbs with
      | nil => exact absurd hne this
      | cons c cs => simp
    show jfuel (.vint n) ≤ (serInt n).length
    rw [serInt]
    by_cases hn : n < 0 <;> (simp [jfuel, hn]; try omega)
  | .vstr s => by simp [jfuel, serJ]
  | .vlist xs => by
    have h := jfuelE_le_len xs
    show 1 + jfuelE xs ≤ ('[' :: serL xs ++ [']']).length
    simp only [List.length_cons, List.length_append, List.length_singleton]
    omega
  | .vobj fs => by
    have h := jfuelM_le_len fs
    show 1 + jfuelM fs ≤ ('{' :: serM fs ++ ['}']).length
    simp only [List.length_cons, List.length_append, List.length_singleton]
    omega
theorem jfuelE_le_len : ∀ (xs : List JVal), jfuelE xs ≤ (serL xs).length + 1
  | [] => by simp [jfuelE]
  | [x] => by
    have h := jfuel_le_len x
    show 1 + max (jfuel x) (jfuelE []) ≤ (serJ x).length + 1
    simp only [jfuelE]
    omega
  | x :: y :: ys => by
    have h1 := jfuel_le_len x
    have h2 := jfuelE_le_len (y :: ys)
    show 1 + max (jfuel x) (jfuelE (y :: ys)) ≤ (serJ x ++ ',' :: ' ' :: serL (y :: ys)).length + 1
    simp only [List.length_append, List.length_cons]
    omega
theorem jfuelM_le_len : ∀ (fs : List (Str × JVal)), jfuelM fs ≤ (serM fs).length + 1
  | [] => by simp [jfuelM]
  | [f] => by
    have h := jfuel_le_len f.2
    show 1 + max (jfuel f.2) (jfuelM []) ≤ ('"' :: escStr f.1 ++ '"' :: ':' :: ' ' :: serJ f.2).length + 1
    simp only [jfuelM, List.length_cons, List.length_append]
    omega
  | f :: g :: gs => by
    have h1 := jfuel_le_len f.2
    have h2 := jfuelM_le_len (g :: gs)
    show 1 + max (jfuel f.2) (jfuelM (g :: gs)) ≤
      (('"' :: escStr f.1 ++ '"' :: ':' :: ' ' :: serJ f.2) ++ ',' :: ' ' :: serM (g :: gs)).length + 1
    simp only [List.length_append, List.length_cons]
    omega
end

/-- The serializer-parser round-trip at the `json.loads` level: parsing a
serialized well-formed value (in its given key order) recovers it exactly. -/
theorem jsonLoads_serJ (w : JVal) (hwf : jwfB w = true) :
    jsonLoads (serJ w) = .ok w := by
  have hf : jfuel w ≤ (serJ w).length + 1 :=
    le_trans (jfuel_le_len w) (by omega)
  have h := parseVal_ser ((serJ w).length + 1) w [] hwf hf (numGuard_nil w)
  rw [List.append_nil] at h
  simp only [jsonLoads, h]
  rfl

theorem charsLeB_total : ∀ (a b : Str), charsLeB a b = true ∨ charsLeB b a = true
  | [], _ => by simp [charsLeB]
  | _ :: _, [] => by simp [charsLeB]
  | a :: as, b :: bs => by
    rw [charsLeB, charsLeB]
    rcases Nat.lt_trichotomy a.toNat b.toNat with h | h | h
    · simp [h, Nat.not_lt_of_lt h]
    · rcases charsLeB_total as bs with ih | ih <;> simp [h, ih]
    · simp [h, Nat.not_lt_of_lt h]

theorem charsLeB_head_le (a b : Char) (as bs : Str)
    (h : charsLeB (a :: as) (b :: bs) = true) : a.toNat ≤ b.toNat := by
  rw [charsLeB] at h
  by_cases h1 : a.toNat < b.toNat
  · omega
  · by_cases h2 : b.toNat < a.toNat
    · simp [h1, h2] at h
    · omega

theorem charsLeB_trans : ∀ (a b c : Str), charsLeB a b = true → charsLeB b c = true →
    charsLeB a c = true
  | [], _, _ => by simp [charsLeB]
  | _ :: _, [], _ => by simp [charsLeB]
  | a :: as, b :: bs, [] => by simp [charsLeB]
  | a :: as, b :: bs, c :: cs => by
    intro h1 h2
    have hab := charsLeB_head_le a b as bs h1
    have hbc := charsLeB_head_le b c bs cs h2
    rw [charsLeB]
    by_cases hac : a.toNat < c.toNat
    · simp [hac]
    · have hba : ¬b.toNat < a.toNat := by omega
      have hcb : ¬c.toNat < b.toNat := by omega
      have hca : ¬c.toNat < a.toNat := by omega
      rw [charsLeB] at h1 h2
      rw [if_neg (by omega : ¬a.toNat < b.toNat), if_neg hba] at h1
      rw [if_neg (by omega : ¬b.toNat < c.toNat), if_neg hcb] at h2
      simp [hac, hca]
      exact charsLeB_trans as bs cs h1 h2

/-- The key order used by `sorted` over cache keys and `sort_keys`. -/
def keyLe (p q : Str × JVal) : Prop := charsLeB p.1 q.1 = true

theorem orderedInsertKey_perm (p : Str × JVal) (l : List (Str × JVal)) :
    List.Perm (orderedInsertKey p l) (p :: l) := by
  induction l with
  | nil => rfl
  | cons q qs ih =>
    rw [orderedInsertKey]
    by_cases h : charsLeB p.1 q.1
    · rw [if_pos h]
    · rw [if_neg h]
      exact List.Perm.trans (List.Perm.cons q ih) (List.Perm.swap p q qs)

theorem sortByKey_perm (l : List (Str × JVal)) : List.Perm (sortByKey l) l := by
  induction l with
  | nil => rfl
  | cons p ps ih =>
    rw [sortByKey]
    exact List.Perm.trans (orderedInsertKey_perm p (sortByKey ps)) (List.Perm.cons p ih)

theorem orderedInsertKey_sorted (p : Str × JVal) (l : List (Str × JVal))
    (h : List.Pairwise keyLe l) : List.Pairwise keyLe (orderedInsertKey p l) := by
  induction l with
  | nil => simp [orderedInsertKey]
  | cons q qs ih =>
    rw [orderedInsertKey]
    rcases List.pairwise_cons.mp h with ⟨hq, hqs⟩
    by_cases hle : charsLeB p.1 q.1
    · rw [if_pos hle]
      refine List.pairwise_cons.mpr ⟨?_, h⟩
      intro x hx
      rcases List.mem_cons.mp hx with rfl | hx2
      · exact hle
      · exact charsLeB_trans _ _ _ hle (hq x hx2)
    · rw [if_neg hle]
      refine List.pairwise_cons.mpr ⟨?_, ih hqs⟩
      intro x hx
      have hx2 := (List.Perm.mem_iff (orderedInsertKey_perm p qs)).mp hx
      rcases List.mem_cons.mp hx2 with rfl | hx3
      · rcases charsLeB_total x.1 q.1 with ht | ht
        · exact absurd ht hle
        · exact ht
      · exact hq x hx3

theorem sortByKey_sorted (l : List (Str × JVal)) : List.Pairwise keyLe (sortByKey l) := by
  induction l with
  | nil => simp [sortByKey]
  | cons p ps ih => exact orderedInsertKey_sorted p (sortByKey ps) ih

theorem sortByKey_of_sorted (l : List (Str × JVal)) (h : List.Pairwise keyLe l) :
    sortByKey l = l := by
  induction l with
  | nil => rfl
  | cons p ps ih =>
    rcases List.pairwise_cons.mp h with ⟨hp, hps⟩
    rw [sortByKey, ih hps]
    cases ps with
    | nil => rfl
    | cons q qs =>
      rw [orderedInsertKey, if_pos (show charsLeB p.1 q.1 = true from hp q (by simp))]

theorem sortByKey_idem (l : List (Str × JVal)) : sortByKey (sortByKey l) = sortByKey l :=
  sortByKey_of_sorted _ (sortByKey_sorted l)

theorem orderedInsertKey_sortKeysM (p : Str × JVal) (l : List (Str × JVal)) :
    orderedInsertKey (p.1, sortKeysRec p.2) (sortKeysM l) = sortKeysM (orderedInsertKey p l) := by
  induction l with
  | nil => rfl
  | cons q qs ih =>
    rw [show sortKeysM (q :: qs) = (q.1, sortKeysRec q.2) :: sortKeysM qs from rfl,
        orderedInsertKey, orderedInsertKey]
    by_cases h : charsLeB p.1 q.1
    · rw [if_pos h, if_pos h]
      rfl
    · rw [if_neg h, if_neg h]
      rw [show sortKeysM (q :: orderedInsertKey p qs) =
        (q.1, sortKeysRec q.2) :: sortKeysM (orderedInsertKey p qs) from rfl, ih]

theorem sortByKey_sortKeysM (l : List (Str × JVal)) :
    sortByKey (sortKeysM l) = sortKeysM (sortByKey l) := by
  induction l with
  | nil => rfl
  | cons p ps ih =>
    rw [show sortKeysM (p :: ps) = (p.1, sortKeysRec p.2) :: sortKeysM ps from rfl,
        sortByKey, sortByKey, ih, orderedInsertKey_sortKeysM]

theorem keysOf_sortKeysM (fs : List (Str × JVal)) : keysOf (sortKeysM fs) = keysOf fs := by
  induction fs with
  | nil => rfl
  | cons f fs ih =>
    rw [show sortKeysM (f :: fs) = (f.1, sortKeysRec f.2) :: sortKeysM fs from rfl]
    simp [keysOf] at ih ⊢
    exact ih

theorem nodupKeysB_iff (l : List (Str × JVal)) :
    nodupKeysB l = true ↔ (keysOf l).Nodup := by
  induction l with
  | nil => simp [nodupKeysB, keysOf]
  | cons f fs ih =>
    rw [nodupKeysB, Bool.and_eq_true, ih]
    simp only [keysOf, List.map_cons, List.nodup_cons]
    constructor
    · rintro ⟨h1, h2⟩
      refine ⟨?_, h2⟩
      intro hmem
      rcases List.mem_map.mp hmem with ⟨g, hg, hgk⟩
      rw [Bool.not_eq_true', List.any_eq_false] at h1
      have := h1 g hg
      simp [hgk] at this
    · rintro ⟨h1, h2⟩
      refine ⟨?_, h2⟩
      rw [Bool.not_eq_true', List.any_eq_false]
      intro g hg
      simp only [decide_eq_true_eq]
      intro hgk
      exact h1 (List.mem_map.mpr ⟨g, hg, hgk⟩)

theorem jwfM_iff (fs : List (Str × JVal)) :
    jwfM fs = true ↔ ∀ f ∈ fs, jwfB f.2 = true := by
  induction fs with
  | nil => simp [jwfM]
  | cons f fs ih =>
    rw [jwfM, Bool.and_eq_true, ih]
    constructor
    · rintro ⟨h1, h2⟩ g hg
      rcases List.mem_cons.mp hg with rfl | hg2
      · exact h1
      · exact h2 g hg2
    · intro h
      exact ⟨h f (by simp), fun g hg => h g (by simp [hg])⟩

mutual
theorem jwfB_sort : ∀ (v : JVal), jwfB v = true → jwfB (sortKeysRec v) = true
  | .vnull, _ => rfl
  | .vbool _, _ => rfl
  | .vint _, _ => rfl
  | .vstr _, _ => rfl
  | .vlist xs, h => jwfL_sort xs h
  | .vobj fs, h => by
    rcases (Bool.and_eq_true _ _).mp h with ⟨hnd, hm⟩
    show (nodupKeysB (sortByKey (sortKeysM fs)) && jwfM (sortByKey (sortKeysM fs))) = true
    rw [Bool.and_eq_true]
    constructor
    · rw [nodupKeysB_iff]
      have hperm : List.Perm (keysOf (sortByKey (sortKeysM fs))) (keysOf fs) := by
        rw [show keysOf (sortByKey (sortKeysM fs)) =
          (sortByKey (sortKeysM fs)).map Prod.fst from rfl]
        have := (sortByKey_perm (sortKeysM fs)).map Prod.fst
        rw [show (sortKeysM fs).map Prod.fst = keysOf (sortKeysM fs) from rfl,
          keysOf_sortKeysM] at this
        exact this
      exact hperm.nodup_iff.mpr ((nodupKeysB_iff fs).mp hnd)
    · rw [jwfM_iff]
      intro f hf
      have hf2 : f ∈ sortKeysM fs :=
        (List.Perm.mem_iff (sortByKey_perm (sortKeysM fs))).mp hf
      have := jwfM_sort fs hm
      exact (jwfM_iff (sortKeysM fs)).mp this f hf2
theorem jwfL_sort : ∀ (xs : List JVal), jwfL xs = true → jwfL (sortKeysL xs) = true
  | [], _ => rfl
  | x :: xs, h => by
    rcases (Bool.and_eq_true _ _).mp h with ⟨h1, h2⟩
    show (jwfB (sortKeysRec x) && jwfL (sortKeysL xs)) = true
    rw [Bool.and_eq_true]
    exact ⟨jwfB_sort x h1, jwfL_sort xs h2⟩
theorem jwfM_sort : ∀ (fs : List (Str × JVal)), jwfM fs = true → jwfM (sortKeysM fs) = true
  | [], _ => rfl
  | f :: fs, h => by
    rcases (Bool.and_eq_true _ _).mp h with ⟨h1, h2⟩
    show (jwfB (sortKeysRec f.2) && jwfM (sortKeysM fs)) = true
    rw [Bool.and_eq_true]
    exact ⟨jwfB_sort f.2 h1, jwfM_sort fs h2⟩
end

mutual
theorem sortJ_idem : ∀ (v : JVal), sortKeysRec (sortKeysRec v) = sortKeysRec v
  | .vnull => rfl
  | .vbool _ => rfl
  | .vint _ => rfl
  | .vstr _ => rfl
  | .vlist xs => by
    show JVal.vlist (sortKeysL (sortKeysL xs)) = JVal.vlist (sortKeysL xs)
    rw [sortL_idem xs]
  | .vobj fs => by
    show JVal.vobj (sortByKey (sortKeysM (sortByKey (sortKeysM fs)))) =
      JVal.vobj (sortByKey (sortKeysM fs))
    rw [sortByKey_sortKeysM (sortByKey (sortKeysM fs))]
    rw [sortByKey_idem]
    rw [← sortByKey_sortKeysM (sortKeysM fs)]
    rw [sortM_idem fs]
theorem sortL_idem : ∀ (xs : List JVal), sortKeysL (sortKeysL xs) = sortKeysL xs
  | [] => rfl
  | x :: xs => by
    show sortKeysRec (sortKeysRec x) :: sortKeysL (sortKeysL xs) =
      sortKeysRec x :: sortKeysL xs
    rw [sortJ_idem x, sortL_idem xs]
theorem sortM_idem : ∀ (fs : List (Str × JVal)), sortKeysM (sortKeysM fs) = sortKeysM fs
  | [] => rfl
  | f :: fs => by
    show (f.1, sortKeysRec (sortKeysRec f.2)) :: sortKeysM (sortKeysM fs) =
      (f.1, sortKeysRec f.2) :: sortKeysM fs
    rw [sortJ_idem f.2, sortM_idem fs]
end

/-- The full `json.dumps(…, sort_keys=True)` / `json.loads` round-trip: the
parsed value is the original with every object's keys in sorted order. -/
theorem jsonLoads_dumps (v : JVal) (hwf : jwfB v = true) :
    jsonLoads (dumps v) = .ok (sortKeysRec v) :=
  jsonLoads_serJ (sortKeysRec v) (jwfB_sort v hwf)

/-- Re-serializing the parse of a dump gives the same bytes: the basis of
`save(load(f))` being a no-op on canonical cache files. -/
theorem dumps_sortKeysRec (v : JVal) : dumps (sortKeysRec v) = dumps v := by
  rw [dumps, dumps, sortJ_idem]

theorem pyStrip_clean (c : Char) (cs : Str) (hc : pyIsSpace c = false)
    (hl : pyIsSpace ((c :: cs).getLastD ' ') = false) : pyStrip (c :: cs) = c :: cs := by
  rw [pyStrip, List.dropWhile_cons, if_neg (by simp [hc])]
  rcases hrev : (c :: cs).reverse with _ | ⟨d, ds⟩
  · exact absurd (List.reverse_eq_nil_iff.mp hrev) (by simp)
  · have hd : (c :: cs).getLast? = some d := by
      rw [← List.head?_reverse, hrev]
      rfl
    have hdl : pyIsSpace d = false := by
      rw [List.getLastD_eq_getLast?, hd] at hl
      exact hl
    rw [List.dropWhile_cons]
    rw [if_neg (by simp [hdl])]
    rw [← hrev]
    rw [List.reverse_reverse]

theorem pyStrip_cons_space (l : Str) : pyStrip (' ' :: l) = pyStrip l := rfl

/-- C1 counterexample.  A compact-form payload (2nd character `a` naming the
arXiv provider, identifier after the fixed offset) wrapped in the delimiter
pair is not valid JSON: `extract_metadata` raises the decode error rather
than returning a descriptor, so the compact encoding is not accepted. -/
theorem c1_counterexample :
    extractMetadata (chars "+ \x7b#a:1234.5678\x7d") = .error .jsonError := rfl

theorem serJ_vobj_getLast (fs : List (Str × JVal)) (d : Char) :
    (serJ (.vobj fs)).getLastD d = '}' := by
  show ('{' :: serM fs ++ ['}']).getLastD d = '}'
  rw [show '{' :: serM fs ++ ['}'] = ('{' :: serM fs) ++ ['}'] from rfl,
    List.getLastD_concat]

/-- C1 amended.  The extractor accepts only the structured form: for every
JSON object payload (serialized with the delimiters `{`…`}` after the `+`
marker), `extract_metadata` returns the parsed object extended with
`enumerator_char` and `line_prefix` — and a compact-form positional payload
is not valid JSON, so it raises a parse error instead of producing a
descriptor. -/
theorem c1_structured_form_only (fs : List (Str × JVal))
    (hwf : jwfB (.vobj fs) = true) :
    extractMetadata ('+' :: ' ' :: serJ (.vobj fs)) =
      .ok (some (dictSet (dictSet fs (chars "enumerator_char") (.vstr ['+']))
        (chars "line_prefix") (.vstr []))) ∧
    extractMetadata (chars "+ \x7b#a:1234.5678\x7d") = .error .jsonError := by
  constructor
  · have hlast : ∀ (p : Str), (p ++ ['}']).getLastD ' ' = '}' := fun p => List.getLastD_concat _ _ _
    have hstrip : pyStrip ('+' :: ' ' :: serJ (.vobj fs)) = '+' :: ' ' :: serJ (.vobj fs) := by
      refine pyStrip_clean '+' (' ' :: serJ (.vobj fs)) (by decide) ?_
      rw [show ('+' :: ' ' :: serJ (.vobj fs)) = ('+' :: ' ' :: '{' :: serM fs) ++ ['}'] from rfl,
        hlast]
      decide
    have hstrip2 : pyStrip (' ' :: serJ (.vobj fs)) = serJ (.vobj fs) := by
      rw [pyStrip_cons_space]
      refine pyStrip_clean '{' (serM fs ++ ['}']) (by decide) ?_
      rw [show (('{' : Char) :: (serM fs ++ ['}'])) = ('{' :: serM fs) ++ ['}'] from rfl, hlast]
      decide
    have hcons : extractMetadata ('+' :: ' ' :: serJ (.vobj fs)) =
        extractCore ('+' :: ' ' :: serJ (.vobj fs)) '+' (' ' :: serJ (.vobj fs)) := by
      simp only [extractMetadata, hstrip]
    rw [hcons, extractCore, if_pos (show '+' ∈ ENUMERATION_CHARS by decide), hstrip2]
    rw [show serJ (.vobj fs) = '{' :: (serM fs ++ ['}']) from rfl]
    rw [extractRef]
    rw [if_pos ⟨rfl, by
      rw [show (('{' : Char) :: (serM fs ++ ['}'])) = ('{' :: serM fs) ++ ['}'] from rfl, hlast]⟩]
    rw [show ('{' :: (serM fs ++ ['}']) : Str) = serJ (.vobj fs) from rfl]
    rw [jsonLoads_serJ (.vobj fs) hwf]
    rfl
  · exact rfl

/-- Witness for C1 at the payload object `{"arxiv_id": "1234.5678"}`. -/
theorem c1_witness :
    extractMetadata ('+' :: ' ' :: serJ (.vobj [(chars "arxiv_id", .vstr (chars "1234.5678"))])) =
      .ok (some (dictSet (dictSet [(chars "arxiv_id", .vstr (chars "1234.5678"))]
        (chars "enumerator_char") (.vstr ['+']))
        (chars "line_prefix") (.vstr []))) ∧
    extractMetadata (chars "+ \x7b#a:1234.5678\x7d") = .error .jsonError :=
  c1_structured_form_only [(chars "arxiv_id", .vstr (chars "1234.5678"))] rfl

theorem jlookup_eq_none (l : List (Str × JVal)) (k : Str) (h : k ∉ keysOf l) :
    jlookup l k = none := by
  induction l with
  | nil => rfl
  | cons f fs ih =>
    simp only [keysOf, List.map_cons, List.mem_cons, not_or] at h
    rw [jlookup, if_neg (fun he => h.1 he.symm)]
    exact ih h.2

theorem jlookup_perm (l1 l2 : List (Str × JVal)) (hp : List.Perm l1 l2) (k : Str) :
    (keysOf l1).Nodup → jlookup l1 k = jlookup l2 k := by
  induction hp with
  | nil => intro _; rfl
  | cons x hp ih =>
    intro hnd
    simp only [keysOf, List.map_cons, List.nodup_cons] at hnd
    rw [jlookup, jlookup]
    by_cases hx : x.1 = k
    · rw [if_pos hx, if_pos hx]
    · rw [if_neg hx, if_neg hx]
      exact ih hnd.2
  | swap x y l =>
    intro hnd
    simp only [keysOf, List.map_cons, List.nodup_cons, List.mem_cons, not_or] at hnd
    have hxy : ¬ y.1 = x.1 := hnd.1.1
    by_cases hy : y.1 = k <;> by_cases hx : x.1 = k
    · exact absurd (hy.trans hx.symm) hxy
    · simp [jlookup, hy, hx]
    · simp [jlookup, hy, hx]
    · simp [jlookup, hy, hx]
  | trans hp1 hp2 ih1 ih2 =>
    intro hnd
    have hnd2 := ((hp1.map Prod.fst).nodup_iff).mp hnd
    rw [ih1 hnd, ih2 hnd2]

theorem jlookup_sortKeysM (fs : List (Str × JVal)) (k : Str) :
    jlookup (sortKeysM fs) k = (jlookup fs k).map sortKeysRec := by
  induction fs with
  | nil => rfl
  | cons f fs ih =>
    rw [show sortKeysM (f :: fs) = (f.1, sortKeysRec f.2) :: sortKeysM fs from rfl]
    rw [jlookup, jlookup]
    by_cases hf : f.1 = k
    · rw [if_pos hf, if_pos hf]
      rfl
    · rw [if_neg hf, if_neg hf, ih]

/-- Looking a key up in the key-sorted, recursively key-sorted copy of an
object (what a record becomes after `dumps` + `loads`) returns the
recursively key-sorted copy of the original value. -/
theorem jlookup_sorted_obj (fs : List (Str × JVal)) (hnd : nodupKeysB fs = true) (k : Str) :
    jlookup (sortByKey (sortKeysM fs)) k = (jlookup fs k).map sortKeysRec := by
  have hperm : List.Perm (sortByKey (sortKeysM fs)) (sortKeysM fs) := sortByKey_perm _
  have h1 : List.Perm (keysOf (sortByKey (sortKeysM fs))) (keysOf (sortKeysM fs)) :=
    hperm.map Prod.fst
  have hnd2 : (keysOf (sortByKey (sortKeysM fs))).Nodup := by
    rw [keysOf_sortKeysM] at h1
    exact h1.nodup_iff.mpr ((nodupKeysB_iff fs).mp hnd)
  rw [jlookup_perm _ _ hperm k hnd2, jlookup_sortKeysM]

/-- The well-formedness `load_cache`/`save_cache` rely on: a cached record is
a JSON object with distinct keys at every depth whose `0KEY_` field holds the
record's own cache key.  Automatic for records the program caches
(`met_raw[KEY_FIELD_NAME] = cache_key`). -/
def recWfB (k : Str) : JVal → Bool
  | .vobj fs =>
    (nodupKeysB fs && jwfM fs) &&
      (match jlookup fs KEY_FIELD_NAME with
       | some (.vstr k2) => decide (k2 = k)
       | _ => false)
  | _ => false

/-- Well-formed in-memory cache: distinct cache keys, every record well
formed and self-keyed. -/
def cacheWfB (c : Cache) : Bool := nodupKeysB c && c.all (fun p => recWfB p.1 p.2)

theorem recWfB_vobj (k : Str) (fs : List (Str × JVal)) (h : recWfB k (.vobj fs) = true) :
    (nodupKeysB fs && jwfM fs) = true ∧ jlookup fs KEY_FIELD_NAME = some (.vstr k) := by
  simp only [recWfB, Bool.and_eq_true] at h
  refine ⟨(Bool.and_eq_true _ _).mpr h.1, ?_⟩
  rcases h with ⟨_, h2⟩
  revert h2
  rcases jlookup fs KEY_FIELD_NAME with _ | w
  · intro h2; exact absurd h2 (by simp)
  · cases w with
    | vstr k2 => intro h2; simp at h2; rw [h2]
    | vnull => intro h2; exact absurd h2 (by simp)
    | vbool b => intro h2; exact absurd h2 (by simp)
    | vint n => intro h2; exact absurd h2 (by simp)
    | vlist xs => intro h2; exact absurd h2 (by simp)
    | vobj gs => intro h2; exact absurd h2 (by simp)

theorem map_dumps_sortKeysM (l : List (Str × JVal)) :
    (sortKeysM l).map (fun p => dumps p.2) = l.map (fun p => dumps p.2) := by
  induction l with
  | nil => rfl
  | cons f fs ih =>
    rw [show sortKeysM (f :: fs) = (f.1, sortKeysRec f.2) :: sortKeysM fs from rfl,
      List.map_cons, List.map_cons, ih]
    show dumps (sortKeysRec f.2) :: _ = dumps f.2 :: _
    rw [dumps_sortKeysRec]

/-- Running `load_cache`'s loop over the file `save_cache` writes for a list
of well-formed self-keyed records rebuilds exactly those records, each one
recursively key-sorted, appended to the accumulator in file order. -/
theorem loadCacheAux_canonical (l : List (Str × JVal)) : ∀ (acc : Cache),
    (∀ p ∈ l, recWfB p.1 p.2 = true) →
    (keysOf (acc ++ l)).Nodup →
    loadCacheAux (l.map (fun p => dumps p.2)) acc = .ok (acc ++ sortKeysM l) := by
  induction l with
  | nil =>
    intro acc _ _
    show Except.ok acc = Except.ok (acc ++ sortKeysM [])
    rw [show sortKeysM ([] : List (Str × JVal)) = [] from rfl, List.append_nil]
  | cons p rest ih =>
    intro acc hwf hnd
    obtain ⟨k, v⟩ := p
    have hw := hwf (k, v) (List.mem_cons_self _ _)
    cases v with
    | vobj fs =>
      obtain ⟨hjw, hlk⟩ := recWfB_vobj k fs hw
      have hndfs : nodupKeysB fs = true := ((Bool.and_eq_true _ _).mp hjw).1
      have hjson : jsonLoads (dumps (JVal.vobj fs)) = .ok (sortKeysRec (.vobj fs)) :=
        jsonLoads_dumps _ hjw
      have hsk : sortKeysRec (JVal.vobj fs) = .vobj (sortByKey (sortKeysM fs)) := rfl
      have hlk2 : jlookup (sortByKey (sortKeysM fs)) KEY_FIELD_NAME =
          some (JVal.vstr k) := by
        rw [jlookup_sorted_obj fs hndfs, hlk]
        rfl
      rw [List.map_cons]
      simp only [loadCacheAux, hjson, hsk, hlk2]
      have hknotin : k ∉ keysOf acc := by
        have h2 := hnd
        simp only [keysOf, List.map_append, List.map_cons, List.nodup_append] at h2
        intro hk
        exact h2.2.2 hk (List.mem_cons_self _ _)
      rw [dictSet_fresh acc k _ (jlookup_eq_none acc k hknotin)]
      have hwfrest : ∀ q ∈ rest, recWfB q.1 q.2 = true :=
        fun q hq => hwf q (List.mem_cons_of_mem _ hq)
      have hnd2 : (keysOf ((acc ++ [(k, JVal.vobj (sortByKey (sortKeysM fs)))]) ++
          rest)).Nodup := by
        have h3 := hnd
        simp only [keysOf, List.map_append, List.map_cons, List.map_nil] at h3 ⊢
        rw [List.append_assoc]
        exact h3
      rw [ih (acc ++ [(k, JVal.vobj (sortByKey (sortKeysM fs)))]) hwfrest hnd2]
      rw [show sortKeysM ((k, JVal.vobj fs) :: rest) =
        (k, JVal.vobj (sortByKey (sortKeysM fs))) :: sortKeysM rest from rfl]
      rw [List.append_assoc]
      rfl
    | vnull => simp [recWfB] at hw
    | vbool b => simp [recWfB] at hw
    | vint n => simp [recWfB] at hw
    | vstr s => simp [recWfB] at hw
    | vlist xs => simp [recWfB] at hw

/-- C7 counterexample.  `save(load(f))` is not a no-op on every cache file:
a file whose record's keys are not in sorted order reloads fine, but saving
rewrites the record with its keys sorted, changing the file's contents. -/
theorem c7_counterexample :
    loadCache [chars "\x7b\"b\": 1, \"0KEY_\": \"k\"\x7d"] =
      .ok [(chars "k", .vobj [(chars "b", .vint 1), (chars "0KEY_", .vstr (chars "k"))])] ∧
    saveCache [(chars "k", .vobj [(chars "b", .vint 1), (chars "0KEY_", .vstr (chars "k"))])] =
      [chars "\x7b\"0KEY_\": \"k\", \"b\": 1\x7d"] ∧
    [chars "\x7b\"0KEY_\": \"k\", \"b\": 1\x7d"] ≠ [chars "\x7b\"b\": 1, \"0KEY_\": \"k\"\x7d"] :=
  ⟨rfl, rfl, by decide⟩

/-- C7 amended.  For every well-formed cache `c` (distinct cache keys, each
record a self-keyed JSON object with distinct keys at every depth),
`load_cache` on the file `save_cache` writes reconstructs `c` up to the
recursive key sorting that `sort_keys=True` applies: the reloaded cache is
the key-sorted record list binding exactly the original keys to the
key-sorted records — an equivalent mapping (equal as Python dicts, whose
comparison ignores key order) — and saving the reloaded cache reproduces
the file verbatim, so `save∘load` is a no-op on canonical files (files
`save_cache` produced), though not on arbitrary files (see the
counterexample).  `save_cache` writes one `json.dumps(·, sort_keys=True)`
line per record, the records in ascending cache-key order. -/
theorem c7_cache_round_trip (c : Cache) (hwf : cacheWfB c = true) :
    loadCache (saveCache c) = .ok (sortByKey (sortKeysM c)) ∧
    (∀ k, jlookup (sortByKey (sortKeysM c)) k = (jlookup c k).map sortKeysRec) ∧
    saveCache (sortByKey (sortKeysM c)) = saveCache c ∧
    (saveCache c).length = c.length ∧
    List.Pairwise keyLe (sortByKey c) ∧
    List.Perm (sortByKey c) c := by
  rw [cacheWfB, Bool.and_eq_true] at hwf
  obtain ⟨hnd, hall⟩ := hwf
  have hrec : ∀ p ∈ c, recWfB p.1 p.2 = true := by
    intro p hp
    exact List.all_eq_true.mp hall p hp
  refine ⟨?_, ?_, ?_, ?_, sortByKey_sorted c, sortByKey_perm c⟩
  · rw [loadCache, saveCache]
    have hwf2 : ∀ p ∈ sortByKey c, recWfB p.1 p.2 = true := fun p hp =>
      hrec p ((sortByKey_perm c).mem_iff.mp hp)
    have hnd2 : (keysOf (([] : Cache) ++ sortByKey c)).Nodup := by
      show (keysOf (sortByKey c)).Nodup
      have h1 : List.Perm (keysOf (sortByKey c)) (keysOf c) := (sortByKey_perm c).map Prod.fst
      exact h1.nodup_iff.mpr ((nodupKeysB_iff c).mp hnd)
    rw [loadCacheAux_canonical (sortByKey c) [] hwf2 hnd2]
    rw [show (([] : Cache) ++ sortKeysM (sortByKey c)) = sortKeysM (sortByKey c) from rfl]
    rw [sortByKey_sortKeysM]
  · intro k
    exact jlookup_sorted_obj c hnd k
  · rw [saveCache, saveCache, sortByKey_idem, sortByKey_sortKeysM, map_dumps_sortKeysM]
  · rw [saveCache, List.length_map]
    exact (sortByKey_perm c).length_eq

/-- Concrete well-formed one-record cache used to witness C7. -/
def cW7 : Cache :=
  [(chars "k", .vobj [(KEY_FIELD_NAME, .vstr (chars "k")), (chars "b", .vint 1)])]

/-- Witness for C7: the round-trip theorem applied to the concrete cache
`cW7`, its equivalent-mapping conjunct instantiated at the key `k`. -/
theorem c7_witness :
    cacheWfB cW7 = true ∧
    loadCache (saveCache cW7) = .ok (sortByKey (sortKeysM cW7)) ∧
    jlookup (sortByKey (sortKeysM cW7)) (chars "k") =
      (jlookup cW7 (chars "k")).map sortKeysRec ∧
    saveCache (sortByKey (sortKeysM cW7)) = saveCache cW7 ∧
    (saveCache cW7).length = cW7.length ∧
    List.Pairwise keyLe (sortByKey cW7) ∧
    List.Perm (sortByKey cW7) cW7 :=
  ⟨rfl, (c7_cache_round_trip cW7 rfl).1, (c7_cache_round_trip cW7 rfl).2.1 (chars "k"),
   (c7_cache_round_trip cW7 rfl).2.2.1, (c7_cache_round_trip cW7 rfl).2.2.2.1,
   (c7_cache_round_trip cW7 rfl).2.2.2.2.1, (c7_cache_round_trip cW7 rfl).2.2.2.2.2⟩

/-- The cached raw arXiv record for the C8 scenario: cache key `a:1234.5678`,
title `"Foo\nBar"`, one author with keyname `Smith` and forenames `Jon`,
created `2020-01-01`, `doi` null. -/
def rawC8 : JVal := .vobj [
  (KEY_FIELD_NAME, .vstr (chars "a:1234.5678")),
  (chars "GetRecord", .vobj [
    (chars "record", .vobj [
      (chars "header", .vobj [(chars "identifier", .vstr (chars "oai:arXiv.org:1234.5678"))]),
      (chars "metadata", .vobj [
        (chars "arXiv", .vobj [
          (chars "title", .vstr (chars "Foo\nBar")),
          (chars "authors", .vobj [(chars "author", .vobj [
            (chars "keyname", .vstr (chars "Smith")),
            (chars "forenames", .vstr (chars "Jon"))])]),
          (chars "created", .vstr (chars "2020-01-01")),
          (chars "doi", .vnull)])])])])]

/-- The pre-populated cache for the C8 scenario. -/
def cacheC8 : Cache := [(chars "a:1234.5678", rawC8)]

/-- A fetch oracle that always fails: any live fetch would abort the run, so
a successful result proves no fetch was consulted. -/
def errOracle : Str → Except PyErr JVal := fun _ => .error (.httpError 500)

/-- C8.  End-to-end on the template line `+ {"arxiv_id": "1234.5678"}` with
the arXiv raw record cached: the pipeline performs no fetch (all three
oracles fail, yet the run succeeds with the cache unchanged and the fetch
flag false) and renders exactly the title line `+ (2020) Foo Bar by Jon
Smith` and the PDF line `  + https://arxiv.org/pdf/1234.5678`, with no DOI
line. -/
theorem c8_end_to_end :
    processLine (chars "+ \x7b\"arxiv_id\": \"1234.5678\"\x7d\n") cacheC8
        errOracle errOracle errOracle =
      .ok (chars "+ (2020) Foo Bar by Jon Smith\n  + https://arxiv.org/pdf/1234.5678\n",
        cacheC8, false) := rfl

/-- C10.  When the arXiv raw record has no `doi` field (the guarded access
raises, here: the path lookup errors), `clean_raw_metadata_arxiv` still
returns a record in which the key `doi` is present and bound to `None`.
Merged into any descriptor that has no `doi` of its own (first-seen wins),
the merged record keeps `doi = None`, and a `doi` value from any
later-merged provider record can never fill the field; the renderer's DOI
branch then emits no line. -/
theorem c10_missing_doi_pins_none (metRaw : JVal) (met : List (Str × JVal)) (e : PyErr)
    (hclean : cleanRawMetadataArxiv metRaw = .ok met)
    (herr : jGetPath metRaw [chars "GetRecord", chars "record", chars "metadata",
      chars "arXiv", chars "doi"] = .error e)
    (m1 later : List (Str × JVal)) (pfx : Str)
    (hm1 : jlookup m1 (chars "doi") = none) :
    jlookup met (chars "doi") = some .vnull ∧
    jlookup (mergeDicts (mergeDicts m1 met) later) (chars "doi") = some .vnull ∧
    convertDoiLine (mergeDicts (mergeDicts m1 met) later) pfx = .ok [] := by
  have hdoi : jlookup met (chars "doi") = some .vnull := by
    rcases hc : cleanArxivCore metRaw with e0 | met0
    · simp only [cleanRawMetadataArxiv, Bind.bind, Except.bind, hc] at hclean
      exact Except.noConfusion hclean
    · simp only [cleanRawMetadataArxiv, Bind.bind, Except.bind, Pure.pure, Except.pure,
        hc, herr] at hclean
      injection hclean with h2
      rw [← h2, jlookup_dictSet, if_pos rfl]
  have hmerge : jlookup (mergeDicts (mergeDicts m1 met) later) (chars "doi") =
      some .vnull := by
    rw [mergeDicts_lookup, mergeDicts_lookup, hm1, hdoi]
    rfl
  refine ⟨hdoi, hmerge, ?_⟩
  simp only [convertDoiLine, hmerge, Option.getD]

/-- A raw arXiv record without a `doi` field (and `created` null), used to
witness C10. -/
def rawC10 : JVal := .vobj [
  (chars "GetRecord", .vobj [
    (chars "record", .vobj [
      (chars "header", .vobj [(chars "identifier", .vstr (chars "oai:arXiv.org:1"))]),
      (chars "metadata", .vobj [
        (chars "arXiv", .vobj [
          (chars "title", .vstr (chars "T")),
          (chars "authors", .vobj [(chars "author", .vobj [
            (chars "keyname", .vstr (chars "K")),
            (chars "forenames", .vstr (chars "F"))])]),
          (chars "created", .vnull)])])])])]

/-- `clean_raw_metadata_arxiv rawC10`: the cleaned record, `doi` bound to
`None`. -/
def metC10 : List (Str × JVal) :=
  [(chars "title", .vstr (chars "T")),
   (chars "authors", .vlist [.vlist [.vstr (chars "K"), .vstr (chars "F")]]),
   (chars "arxiv_id", .vstr (chars "1")),
   (chars "doi", .vnull)]

/-- Witness for C10: the pinning theorem applied to `rawC10`, merging over
an empty descriptor and then a later provider record that does carry a
`doi`. -/
theorem c10_witness :
    cleanRawMetadataArxiv rawC10 = .ok metC10 ∧
    jGetPath rawC10 [chars "GetRecord", chars "record", chars "metadata",
      chars "arXiv", chars "doi"] = .error .keyError ∧
    jlookup ([] : List (Str × JVal)) (chars "doi") = none ∧
    jlookup metC10 (chars "doi") = some .vnull ∧
    jlookup (mergeDicts (mergeDicts [] metC10)
      [(chars "doi", .vstr (chars "10.1/x"))]) (chars "doi") = some .vnull ∧
    convertDoiLine (mergeDicts (mergeDicts [] metC10)
      [(chars "doi", .vstr (chars "10.1/x"))]) [] = .ok [] :=
  ⟨rfl, rfl, rfl,
   (c10_missing_doi_pins_none rawC10 metC10 .keyError rfl rfl []
     [(chars "doi", .vstr (chars "10.1/x"))] [] rfl).1,
   (c10_missing_doi_pins_none rawC10 metC10 .keyError rfl rfl []
     [(chars "doi", .vstr (chars "10.1/x"))] [] rfl).2.1,
   (c10_missing_doi_pins_none rawC10 metC10 .keyError rfl rfl []
     [(chars "doi", .vstr (chars "10.1/x"))] [] rfl).2.2⟩
